import Mathlib

/-!
Assignment5: a sharded, lock-protected user → IP registry, and the generator of its workload

Shallow embedding of `Assignment5.cpp`.

* `std::string` is a list of byte values, `int` an `Int`, `std::size_t` a `Nat`
  below `2 ^ 64`, `std::strong_ordering` is `Ordering`.
* `std::map<User, IPAddress>` is an association list kept in the order of
  `std::less<User>`; `std::shared_mutex` is its holder count.
* `std::hash<std::string>` is implementation defined and is a parameter
  `strHash` of everything that hashes.
* Behaviour the language leaves undefined (a signed `int` overflow, a modulo by
  zero) and a lock request that cannot be granted are results of type `Fault`.
-/

namespace Assignment5

/-! ## Data model -/

/-- What a modelled call can end with instead of a value. -/
inductive Fault where
  /-- The selection `hash % _partitions.size()` with an empty partition vector. -/
  | moduloByZero
  /-- The increment `i++` of an `int` that holds `INT_MAX`. -/
  | signedOverflow
  /-- The lock cannot be granted now: the calling thread waits. -/
  | wouldBlock
  /-- The step budget of a modelled loop ran out (never the case for the budgets used here). -/
  | outOfFuel
deriving DecidableEq, Repr

deriving instance DecidableEq for Except

/-- The largest `int`. -/
def INT_MAX : Int := 2147483647

/-- Conversion of an `int` to `std::size_t`, as the comparison `i < partitions` applies it to `i`. -/
def toSizeT (i : Int) : Nat := (i % 2 ^ 64).toNat

/-- The struct `IPAddress`. -/
structure IPAddress where
  address : Nat
deriving DecidableEq, Repr

/-- The struct `User`; `username` holds the bytes of the `std::string`. -/
structure User where
  username : List Nat
  code : Int
deriving DecidableEq, Repr

/-- Three-way comparison of two `std::string`s: lexicographic on the bytes, a proper prefix
being smaller. -/
def stringCompare : List Nat → List Nat → Ordering
  | [], [] => Ordering.eq
  | [], _ :: _ => Ordering.lt
  | _ :: _, [] => Ordering.gt
  | a :: as, b :: bs =>
    if a < b then Ordering.lt else if b < a then Ordering.gt else stringCompare as bs

/-- Three-way comparison of two `int`s. -/
def intCompare (a b : Int) : Ordering :=
  if a < b then Ordering.lt else if b < a then Ordering.gt else Ordering.eq

/-- The member `User::operator==`. -/
def User.eq (self other : User) : Bool :=
  (self.code == other.code) && (self.username == other.username)

/-- The member `User::operator<=>`: the codes first, the usernames when the codes are equal. -/
def User.spaceship (self other : User) : Ordering :=
  let cmp := intCompare self.code other.code
  if cmp ≠ Ordering.eq then cmp else stringCompare self.username other.username

/-- The comparison `a < b` on users, which the language rewrites to `(a <=> b) < 0`: what
`std::less<User>`, the comparison of `std::map<User, IPAddress>`, evaluates. -/
def User.less (a b : User) : Bool :=
  match User.spaceship a b with
  | Ordering.lt => true
  | _ => false

/-- The specialisation `std::hash<User>::operator()`: the hash of the username alone. The string hash is the
library's and is the parameter `strHash`; its result is a `size_t`. -/
def hashUser (strHash : List Nat → Nat) (user : User) : Nat :=
  strHash user.username % 2 ^ 64

/-! ## The container `S = std::map<User, IPAddress>` -/

/-- The entries of a `std::map<User, IPAddress>`, in key order. -/
abbrev Map := List (User × IPAddress)

/-- The value `S()`: the empty map. -/
def Map.empty : Map := []

/-- The call `std::map::insert(value)`: walks the keys in order; the pair goes in front of the first
larger key, and nothing changes when an equivalent key (neither smaller nor larger) is
there already. -/
def Map.insert : Map → User × IPAddress → Map
  | [], value => [value]
  | entry :: rest, value =>
    if User.less value.1 entry.1 then value :: entry :: rest
    else if User.less entry.1 value.1 then entry :: Map.insert rest value
    else entry :: rest

/-- The call `std::map::find(key)`: the value of the entry whose key is equivalent to `key`. -/
def Map.find : Map → User → Option IPAddress
  | [], _ => none
  | entry :: rest, key =>
    if User.less key entry.1 then none
    else if User.less entry.1 key then Map.find rest key
    else some entry.2

/-- The call `std::map::size()`. -/
def Map.size (m : Map) : Nat := m.length

/-- The keys of a map. -/
def Map.keys (m : Map) : List User := m.map Prod.fst

/-! ## The lock `M = std::shared_mutex` -/

/-- Modelled from the spec: the state of the lock `M = std::shared_mutex`, a library type
that is not part of the source: whether it is held exclusively, and by how many shared
holders. Section 4.2 gives its two modes, exclusive access "such that no other thread,
reader or writer, may hold any lock" and shared access where "any number of concurrent
shared holders are permitted, but mutually exclusive with any exclusive holder". -/
structure SharedMutex where
  writer : Bool
  readers : Nat
deriving DecidableEq, Repr

/-- Modelled from the spec: `new M()` of the library's `std::shared_mutex`, a mutex nobody
holds (each partition starts with "an independent lock instance"). -/
def SharedMutex.free : SharedMutex := ⟨false, 0⟩

/-- Modelled from the spec: `lock()` of the library's `std::shared_mutex`, exclusive access,
granted only when nobody holds the mutex; `none` when the caller has to wait. -/
def SharedMutex.lock (m : SharedMutex) : Option SharedMutex :=
  if m.writer = false ∧ m.readers = 0 then some ⟨true, 0⟩ else none

/-- Modelled from the spec: `unlock()` of the library's `std::shared_mutex`, the exclusive
holder lets go. -/
def SharedMutex.unlock (m : SharedMutex) : SharedMutex := ⟨false, m.readers⟩

/-- Modelled from the spec: `lock_shared()` of the library's `std::shared_mutex`, shared
access, granted unless the mutex is held exclusively. -/
def SharedMutex.lock_shared (m : SharedMutex) : Option SharedMutex :=
  if m.writer = false then some ⟨false, m.readers + 1⟩ else none

/-- Modelled from the spec: `unlock_shared()` of the library's `std::shared_mutex`, one
shared holder lets go. -/
def SharedMutex.unlock_shared (m : SharedMutex) : SharedMutex := ⟨m.writer, m.readers - 1⟩

/-! ## The registry -/

/-- One element of `_partitions`: the container and (the mutex behind) its `shared_ptr`. -/
abbrev Partition := Map × SharedMutex

/-- The struct `UserIPRegistration<User, std::map<User, IPAddress>, std::shared_mutex>`. -/
structure UserIPRegistration where
  _partitions : List Partition
deriving DecidableEq, Repr

/-- The loop of the constructor, `for (int i = 0; i < partitions; i++) push_back(...)`,
from the state `(i, vec)`. -/
def UserIPRegistration.constructLoop (partitions : Nat) :
    Nat → Int → List Partition → Except Fault (List Partition)
  | 0, _, _ => Except.error Fault.outOfFuel
  | fuel + 1, i, vec =>
    if toSizeT i < partitions then
      let vec1 := vec ++ [(Map.empty, SharedMutex.free)]
      if INT_MAX < i + 1 then Except.error Fault.signedOverflow
      else constructLoop partitions fuel (i + 1) vec1
    else Except.ok vec

/-- The constructor `UserIPRegistration(std::size_t partitions)`. The loop tests its
condition at most `partitions + 1` times. -/
def UserIPRegistration.construct (partitions : Nat) : Except Fault UserIPRegistration :=
  match UserIPRegistration.constructLoop partitions (partitions + 1) 0 [] with
  | Except.ok vec => Except.ok ⟨vec⟩
  | Except.error e => Except.error e

/-- The struct `Storage<Sm, L>`: `storage` is the partition whose container the reference
is bound to, `lock` the partition whose mutex the lock object `L` holds, and `exclusive`
tells the lock type (`std::lock_guard` when true, `std::shared_lock` otherwise). -/
structure Storage where
  storage : Nat
  lock : Nat
  exclusive : Bool
deriving DecidableEq, Repr

/-- The method `getStorage(key)`: selects the partition `hash % _partitions.size()` and builds the
handle, whose constructor locks that partition's mutex exclusively. -/
def UserIPRegistration.getStorage (strHash : List Nat → Nat) (self : UserIPRegistration)
    (key : User) : Except Fault (Storage × UserIPRegistration) :=
  let hash := hashUser strHash key
  if h0 : self._partitions.length = 0 then Except.error Fault.moduloByZero
  else
    let index := hash % self._partitions.length
    have hlt : index < self._partitions.length := Nat.mod_lt _ (Nat.pos_of_ne_zero h0)
    let mutex := (self._partitions[index]).2
    match mutex.lock with
    | none => Except.error Fault.wouldBlock
    | some held =>
      Except.ok (⟨index, index, true⟩,
        ⟨self._partitions.modify (fun p => (p.1, held)) index⟩)

/-- The method `getSharedStorage(key)`: the same selection; the handle's constructor locks the mutex
in shared mode. -/
def UserIPRegistration.getSharedStorage (strHash : List Nat → Nat) (self : UserIPRegistration)
    (key : User) : Except Fault (Storage × UserIPRegistration) :=
  let hash := hashUser strHash key
  if h0 : self._partitions.length = 0 then Except.error Fault.moduloByZero
  else
    let index := hash % self._partitions.length
    have hlt : index < self._partitions.length := Nat.mod_lt _ (Nat.pos_of_ne_zero h0)
    let mutex := (self._partitions[index]).2
    match mutex.lock_shared with
    | none => Except.error Fault.wouldBlock
    | some held =>
      Except.ok (⟨index, index, false⟩,
        ⟨self._partitions.modify (fun p => (p.1, held)) index⟩)

/-- The member `Storage::operator->`: the container the handle refers to. -/
def Storage.arrow (s : Storage) (r : UserIPRegistration) : Map :=
  match r._partitions[s.storage]? with
  | some p => p.1
  | none => Map.empty

/-- A write through `operator->` of a handle on a mutable container: the referenced
container becomes `m`. -/
def Storage.assign (s : Storage) (r : UserIPRegistration) (m : Map) : UserIPRegistration :=
  ⟨r._partitions.modify (fun p => (m, p.2)) s.storage⟩

/-- Modelled from the spec: the destructor of the handle, implicit in the source. It destroys
the lock member, a library `std::lock_guard` or `std::shared_lock`, which releases the
mutex with `unlock()` or `unlock_shared()` (section 4.3: "On destruction (end of scope):
releases the lock unconditionally"). -/
def Storage.destroy (s : Storage) (r : UserIPRegistration) : UserIPRegistration :=
  ⟨r._partitions.modify
    (fun p => (p.1, if s.exclusive then p.2.unlock else p.2.unlock_shared)) s.lock⟩

/-- The loop of `size()`, `for (int i = 0; i < _partitions.size(); i++) total += ...`,
from the state `(i, total)`. -/
def UserIPRegistration.sizeLoop (self : UserIPRegistration) : Nat → Int → Nat → Except Fault Nat
  | 0, _, _ => Except.error Fault.outOfFuel
  | fuel + 1, i, total =>
    if h : toSizeT i < self._partitions.length then
      let total1 := total + (self._partitions[toSizeT i]).1.size
      if INT_MAX < i + 1 then Except.error Fault.signedOverflow
      else sizeLoop self fuel (i + 1) total1
    else Except.ok total

/-- The method `size()`. It takes no lock and, being `const`, has the registry only as an input. The
loop tests its condition at most `_partitions.size() + 1` times. The sum is not reduced
modulo `2 ^ 64`: the entries counted are all in memory at once. -/
def UserIPRegistration.size (self : UserIPRegistration) : Except Fault Nat :=
  UserIPRegistration.sizeLoop self (self._partitions.length + 1) 0 0

/-- A scope that holds a `getStorage` handle, `{ auto storage = r.getStorage(key); body }`.
The body works on the container and ends normally or with an error (a thrown exception);
the handle is destroyed when the scope is left, on either path. The result is the fault of
the acquisition, or the registry after the scope with the body's outcome. -/
def UserIPRegistration.withStorage {ε α : Type} (strHash : List Nat → Nat)
    (self : UserIPRegistration) (key : User) (body : Map → Map × Except ε α) :
    Except Fault (UserIPRegistration × Except ε α) :=
  match self.getStorage strHash key with
  | Except.error f => Except.error f
  | Except.ok (storage, r1) =>
    let res := body (storage.arrow r1)
    Except.ok (storage.destroy (storage.assign r1 res.1), res.2)

/-- A scope that holds a `getSharedStorage` handle; the body can only read the container
(the handle is on `const S`). -/
def UserIPRegistration.withSharedStorage {ε α : Type} (strHash : List Nat → Nat)
    (self : UserIPRegistration) (key : User) (body : Map → Except ε α) :
    Except Fault (UserIPRegistration × Except ε α) :=
  match self.getSharedStorage strHash key with
  | Except.error f => Except.error f
  | Except.ok (storage, r1) =>
    Except.ok (storage.destroy r1, body (storage.arrow r1))

/-- The block of `simulateLoggins`,
`{ auto storage = registration.getStorage(userIP.first); storage->insert(userIP); }`. -/
def login (strHash : List Nat → Nat) (registration : UserIPRegistration)
    (userIP : User × IPAddress) : Except Fault UserIPRegistration :=
  match registration.withStorage strHash userIP.1
      (fun m => (m.insert userIP, (Except.ok () : Except Unit Unit))) with
  | Except.error f => Except.error f
  | Except.ok res => Except.ok res.1

/-- A sequence of `login` blocks, one after the other. -/
def logins (strHash : List Nat → Nat) :
    UserIPRegistration → List (User × IPAddress) → Except Fault UserIPRegistration
  | r, [] => Except.ok r
  | r, userIP :: rest =>
    match login strHash r userIP with
    | Except.error f => Except.error f
    | Except.ok r1 => logins strHash r1 rest

/-- A lookup through the read-only handle,
`{ auto storage = registration.getSharedStorage(key); storage->find(key); }`: the value
found, if any, and the registry after the scope. -/
def lookup (strHash : List Nat → Nat) (registration : UserIPRegistration) (key : User) :
    Except Fault (Option IPAddress × UserIPRegistration) :=
  match registration.withSharedStorage strHash key
      (fun m => (Except.ok (m.find key) : Except Unit (Option IPAddress))) with
  | Except.error f => Except.error f
  | Except.ok (r1, Except.ok found) => Except.ok (found, r1)
  | Except.ok (r1, Except.error _) => Except.ok (none, r1)

/-- The container of partition `i` (empty when there is no such partition). -/
def UserIPRegistration.container (self : UserIPRegistration) (i : Nat) : Map :=
  match self._partitions[i]? with
  | some p => p.1
  | none => Map.empty

/-- The mutex of partition `i`. -/
def UserIPRegistration.mutex (self : UserIPRegistration) (i : Nat) : SharedMutex :=
  match self._partitions[i]? with
  | some p => p.2
  | none => SharedMutex.free

/-- No handle is outstanding: every partition's mutex is free. -/
def UserIPRegistration.Quiescent (self : UserIPRegistration) : Prop :=
  ∀ p ∈ self._partitions, p.2 = SharedMutex.free

instance (r : UserIPRegistration) : Decidable r.Quiescent := by
  unfold UserIPRegistration.Quiescent; infer_instance

/-! ## Threads holding handles -/

/-- The registry together with the handles that are alive, each with the thread whose scope
owns it. -/
structure World where
  registration : UserIPRegistration
  held : List (Nat × Storage)
deriving DecidableEq, Repr

/-- What a thread can do next. -/
inductive Event where
  /-- The thread calls `getStorage(key)` and keeps the handle. -/
  | getStorage (thread : Nat) (key : User)
  /-- The thread calls `getSharedStorage(key)` and keeps the handle. -/
  | getSharedStorage (thread : Nat) (key : User)
  /-- The owner of the live handle number `pos` calls `storage->insert(value)`. -/
  | insert (pos : Nat) (value : User × IPAddress)
  /-- The scope of the live handle number `pos` ends. -/
  | destroy (pos : Nat)
deriving DecidableEq, Repr

/-- One event. An acquisition that cannot be granted is `Fault.wouldBlock` (the thread
waits, so the event does not happen now). An event that names no live handle, or an insert
through a read-only handle (which does not compile), changes nothing. -/
def World.step (strHash : List Nat → Nat) (w : World) : Event → Except Fault World
  | Event.getStorage thread key =>
    match w.registration.getStorage strHash key with
    | Except.error f => Except.error f
    | Except.ok (s, r) => Except.ok ⟨r, w.held ++ [(thread, s)]⟩
  | Event.getSharedStorage thread key =>
    match w.registration.getSharedStorage strHash key with
    | Except.error f => Except.error f
    | Except.ok (s, r) => Except.ok ⟨r, w.held ++ [(thread, s)]⟩
  | Event.insert pos value =>
    match w.held[pos]? with
    | some (_, s) =>
      if s.exclusive then
        Except.ok ⟨s.assign w.registration ((s.arrow w.registration).insert value), w.held⟩
      else Except.ok w
    | none => Except.ok w
  | Event.destroy pos =>
    match w.held[pos]? with
    | some (_, s) => Except.ok ⟨s.destroy w.registration, w.held.eraseIdx pos⟩
    | none => Except.ok w

/-- A sequence of events, in the order in which they happen. -/
def World.run (strHash : List Nat → Nat) : World → List Event → Except Fault World
  | w, [] => Except.ok w
  | w, e :: rest =>
    match w.step strHash e with
    | Except.error f => Except.error f
    | Except.ok w1 => World.run strHash w1 rest

/-- Two live handles can be held at the same time: when they refer to the same container,
both are read-only (shared) handles. -/
def Storage.Compatible (a b : Nat × Storage) : Prop :=
  a.2.storage = b.2.storage → a.2.exclusive = false ∧ b.2.exclusive = false

instance (a b : Nat × Storage) : Decidable (Storage.Compatible a b) := by
  unfold Storage.Compatible; infer_instance

/-- The schedules of a group of threads, each with its own list of steps: one step of one
thread at a time, each thread's steps in its own order, until every thread is done. -/
inductive Interleaving {α : Type} : List (List α) → List α → Prop where
  | done (threads : List (List α)) (h : ∀ t ∈ threads, t = []) : Interleaving threads []
  | step (threads : List (List α)) (i : Nat) (x : α) (rest out : List α)
      (h : threads[i]? = some (x :: rest))
      (tail : Interleaving (threads.set i rest) out) : Interleaving threads (x :: out)

/-- The keys stored in the registry: those of all its containers, partition by partition. -/
def UserIPRegistration.storedKeys (self : UserIPRegistration) : List User :=
  self._partitions.flatMap (fun p => p.1.keys)

/-- The fresh partition the constructor pushes. -/
def freshPartition : Partition := (Map.empty, SharedMutex.free)

/-- The keys of a map are strictly increasing for `std::less<User>`. -/
def Map.Sorted (m : Map) : Prop := List.Pairwise (fun a b => User.less a b = true) (Map.keys m)

/-- The registry after an insert into the container of the partition selected for the key,
all locks as they were: the net effect of a login block, see `login_eq`. -/
def UserIPRegistration.inserted (strHash : List Nat → Nat) (self : UserIPRegistration)
    (kv : User × IPAddress) : UserIPRegistration :=
  ⟨self._partitions.modify (fun p => (p.1.insert kv, p.2))
    (hashUser strHash kv.1 % self._partitions.length)⟩

/-- Every container is sorted and holds only keys that select its own partition. -/
def UserIPRegistration.WellFormed (strHash : List Nat → Nat) (self : UserIPRegistration) : Prop :=
  ∀ (i : Nat) (p : Partition), self._partitions[i]? = some p →
    Map.Sorted p.1 ∧ ∀ k ∈ p.1.keys, hashUser strHash k % self._partitions.length = i

/-- The sum of the sizes of the containers. -/
def UserIPRegistration.sizeSum (self : UserIPRegistration) : Nat :=
  (self._partitions.map (fun p => p.1.size)).sum

/-- What ties the live handles to the mutexes: every handle holds the mutex of the partition
it refers to, the shared holders of each mutex are the live read-only handles on it, and it
is held exclusively exactly when one live `getStorage` handle on it exists, in which case
it has no shared holder. -/
def World.Inv (w : World) : Prop :=
  (∀ h ∈ w.held, h.2.lock = h.2.storage ∧ h.2.storage < w.registration._partitions.length) ∧
  ∀ i, (w.registration.mutex i).readers
        = w.held.countP (fun h => decide (h.2.lock = i) && !h.2.exclusive) ∧
      (if (w.registration.mutex i).writer then 1 else 0)
        = w.held.countP (fun h => decide (h.2.lock = i) && h.2.exclusive) ∧
      ((w.registration.mutex i).writer = true → (w.registration.mutex i).readers = 0)

/-! ## Operations on the registry, one at a time -/

/-- One use of the registry by a caller. -/
inductive Operation where
  /-- A login block: `getStorage(k)->insert((k, v))`. -/
  | insert (userIP : User × IPAddress)
  /-- A lookup through `getSharedStorage(key)`. -/
  | lookup (key : User)
  /-- A call of `size()`. -/
  | size
deriving DecidableEq, Repr

/-- The registry after one operation. -/
def perform (strHash : List Nat → Nat) (r : UserIPRegistration) :
    Operation → Except Fault UserIPRegistration
  | Operation.insert userIP => login strHash r userIP
  | Operation.lookup key =>
    match lookup strHash r key with
    | Except.error f => Except.error f
    | Except.ok res => Except.ok res.2
  | Operation.size =>
    match r.size with
    | Except.error f => Except.error f
    | Except.ok _ => Except.ok r

/-- The registry after a sequence of operations. -/
def performAll (strHash : List Nat → Nat) :
    UserIPRegistration → List Operation → Except Fault UserIPRegistration
  | r, [] => Except.ok r
  | r, op :: rest =>
    match perform strHash r op with
    | Except.error f => Except.error f
    | Except.ok r1 => performAll strHash r1 rest

/-! ## The generator of the workload -/

/-- The function `rotl(x, k)` on `uint64_t`: `(x << k) | (x >> (64 - k))`, the left shift
cut to 64 bits. -/
def rotl (x : Nat) (k : Nat) : Nat :=
  ((x <<< k) % 2 ^ 64) ||| (x >>> (64 - k))

/-- The array `uint64_t state[4]`. -/
structure RandomState where
  s0 : Nat
  s1 : Nat
  s2 : Nat
  s3 : Nat
deriving DecidableEq, Repr

/-- The function `random(state)`: the value returned and the array as it is left, statement
by statement. -/
def random (state : RandomState) : Nat × RandomState :=
  let result := (rotl ((state.s0 + state.s3) % 2 ^ 64) 23 + state.s0) % 2 ^ 64
  let t := (state.s1 <<< 17) % 2 ^ 64
  let st2 := state.s2 ^^^ state.s0
  let st3 := state.s3 ^^^ state.s1
  let st1 := state.s1 ^^^ st2
  let st0 := state.s0 ^^^ st3
  let st2 := st2 ^^^ t
  let st3 := rotl st3 45
  (result, ⟨st0, st1, st2, st3⟩)

/-- The loop of `createFakeUser` that appends the letters of the username, with `n` rounds
left to go. -/
def createFakeUser.nameLoop : Nat → RandomState → List Nat → List Nat × RandomState
  | 0, state, username => (username, state)
  | n + 1, state, username =>
    let res := random state
    createFakeUser.nameLoop n res.2 (username ++ [res.1 % 26 + 97])

/-- The function `createFakeUser(i)`. -/
def createFakeUser (i : Nat) : User × IPAddress :=
  let state : RandomState := ⟨i, 0, 0, 0⟩
  let r1 := random state
  let namelen := r1.1 % 9 + 5
  let named := createFakeUser.nameLoop namelen r1.2 []
  let r2 := random named.2
  let code : Int := ((r2.1 % 10000 : Nat) : Int)
  let r3 := random r2.2
  (⟨named.1, code⟩, ⟨r3.1 &&& 0xFFFFFFFF⟩)

/-- All four words of a generator state fit 64 bits. -/
def RandomState.Valid (s : RandomState) : Prop :=
  s.s0 < 2 ^ 64 ∧ s.s1 < 2 ^ 64 ∧ s.s2 < 2 ^ 64 ∧ s.s3 < 2 ^ 64

instance (s : RandomState) : Decidable s.Valid := by
  unfold RandomState.Valid; infer_instance

/-- The state after `n` calls of `random`. -/
def RandomState.after : Nat → RandomState → RandomState
  | 0, s => s
  | n + 1, s => RandomState.after n (random s).2

/-! ## Arithmetic of the loop counters -/

theorem toSizeT_natCast (n : Nat) (h : n < 2 ^ 64) : toSizeT (n : Int) = n := by
  unfold toSizeT
  have h1 : ((n : Int) % 2 ^ 64) = (n : Int) := by
    apply Int.emod_eq_of_lt (by omega)
    have : ((2 : Int) ^ 64) = ((2 ^ 64 : Nat) : Int) := by norm_num
    rw [this]; exact_mod_cast h
  rw [h1]; simp

theorem toSizeT_of_le_INT_MAX (j : Nat) (h : (j : Int) ≤ INT_MAX) : toSizeT (j : Int) = j := by
  apply toSizeT_natCast
  unfold INT_MAX at h
  omega

theorem constructLoop_ok (n : Nat) (hn : (n : Int) ≤ INT_MAX) :
    ∀ (fuel j : Nat) (vec : List Partition), j ≤ n → n - j < fuel →
      UserIPRegistration.constructLoop n fuel (j : Int) vec
        = Except.ok (vec ++ List.replicate (n - j) freshPartition) := by
  intro fuel
  induction fuel with
  | zero => intro j vec _ h; omega
  | succ fuel ih =>
    intro j vec hj hf
    have hjmax : (j : Int) ≤ INT_MAX := by omega
    rw [UserIPRegistration.constructLoop, toSizeT_of_le_INT_MAX j hjmax]
    by_cases hlt : j < n
    · have hno : ¬ INT_MAX < (j : Int) + 1 := by omega
      simp only [hlt, if_true, hno, if_false]
      have h1 := ih (j + 1) (vec ++ [(Map.empty, SharedMutex.free)]) (by omega) (by omega)
      rw [show ((j : Int) + 1) = ((j + 1 : Nat) : Int) by push_cast; rfl, h1]
      have h2 : n - j = (n - (j + 1)) + 1 := by omega
      rw [h2, List.replicate_succ, List.append_assoc]
      rfl
    · have hz : n - j = 0 := by omega
      simp [hlt, hz]

theorem constructLoop_overflow (n : Nat) (hn : INT_MAX < (n : Int)) :
    ∀ (fuel j : Nat) (vec : List Partition), (j : Int) ≤ INT_MAX → INT_MAX - (j : Int) < fuel →
      UserIPRegistration.constructLoop n fuel (j : Int) vec
        = Except.error Fault.signedOverflow := by
  intro fuel
  induction fuel with
  | zero => intro j vec h1 h2; simp at h2; omega
  | succ fuel ih =>
    intro j vec hj hf
    rw [UserIPRegistration.constructLoop, toSizeT_of_le_INT_MAX j hj]
    have hlt : j < n := by omega
    simp only [hlt, if_true]
    by_cases ho : INT_MAX < (j : Int) + 1
    · simp [ho]
    · simp only [ho, if_false]
      have h1 := ih (j + 1) (vec ++ [(Map.empty, SharedMutex.free)])
        (by push_cast; omega) (by push_cast; omega)
      rw [show ((j : Int) + 1) = ((j + 1 : Nat) : Int) by push_cast; rfl, h1]

/-- The constructor returns exactly when the count fits an `int`, and then with that many
fresh partitions. -/
theorem construct_of_le (n : Nat) (hn : (n : Int) ≤ INT_MAX) :
    UserIPRegistration.construct n = Except.ok ⟨List.replicate n freshPartition⟩ := by
  unfold UserIPRegistration.construct
  have h := constructLoop_ok n hn (n + 1) 0 [] (by omega) (by omega)
  simp only [Nat.cast_zero, Nat.sub_zero, List.nil_append] at h
  rw [h]

theorem construct_of_gt (n : Nat) (hn : INT_MAX < (n : Int)) :
    UserIPRegistration.construct n = Except.error Fault.signedOverflow := by
  unfold UserIPRegistration.construct
  have h := constructLoop_overflow n hn (n + 1) 0 [] (by unfold INT_MAX; omega)
    (by push_cast; omega)
  simp only [Nat.cast_zero] at h
  rw [h]

theorem construct_ok_iff (n : Nat) (r : UserIPRegistration) :
    UserIPRegistration.construct n = Except.ok r ↔
      (n : Int) ≤ INT_MAX ∧ r = ⟨List.replicate n freshPartition⟩ := by
  by_cases hn : (n : Int) ≤ INT_MAX
  · rw [construct_of_le n hn]
    constructor
    · intro h; injection h with h; exact ⟨hn, h.symm⟩
    · rintro ⟨_, rfl⟩; rfl
  · rw [construct_of_gt n (by omega)]
    constructor
    · intro h; cases h
    · rintro ⟨h, _⟩; exact absurd h hn

theorem sizeLoop_ok (r : UserIPRegistration) (hn : (r._partitions.length : Int) ≤ INT_MAX) :
    ∀ (fuel j total : Nat), j ≤ r._partitions.length → r._partitions.length - j < fuel →
      UserIPRegistration.sizeLoop r fuel (j : Int) total
        = Except.ok (total + ((r._partitions.drop j).map (fun p => p.1.size)).sum) := by
  intro fuel
  induction fuel with
  | zero => intro j total _ h; omega
  | succ fuel ih =>
    intro j total hj hf
    have hjmax : (j : Int) ≤ INT_MAX := by omega
    rw [UserIPRegistration.sizeLoop]
    by_cases hlt : j < r._partitions.length
    · have hno : ¬ INT_MAX < (j : Int) + 1 := by omega
      have hlt2 : toSizeT (j : Int) < r._partitions.length := by
        rw [toSizeT_of_le_INT_MAX j hjmax]; exact hlt
      simp only [hlt2, dite_true, hno, if_false]
      have h1 := ih (j + 1) (total + (r._partitions[toSizeT (j : Int)]).1.size)
        (by omega) (by omega)
      rw [show ((j : Int) + 1) = ((j + 1 : Nat) : Int) by push_cast; rfl, h1]
      have hd : r._partitions.drop j = r._partitions[j] :: r._partitions.drop (j + 1) :=
        List.drop_eq_getElem_cons hlt
      have he : r._partitions[toSizeT (j : Int)] = r._partitions[j] := by
        congr 1; exact toSizeT_of_le_INT_MAX j hjmax
      rw [hd, he, List.map_cons, List.sum_cons, Nat.add_assoc]
    · have hlt2 : ¬ toSizeT (j : Int) < r._partitions.length := by
        rw [toSizeT_of_le_INT_MAX j hjmax]; exact hlt
      have hz : r._partitions.drop j = [] := List.drop_of_length_le (by omega)
      simp [hlt2, hz]

/-- With a partition count that fits an `int`, `size()` returns the sum of the sizes of
the containers. -/
theorem size_eq_sum (r : UserIPRegistration) (hn : (r._partitions.length : Int) ≤ INT_MAX) :
    r.size = Except.ok ((r._partitions.map (fun p => p.1.size)).sum) := by
  unfold UserIPRegistration.size
  have h := sizeLoop_ok r hn (r._partitions.length + 1) 0 0 (by omega) (by omega)
  simpa using h

/-! ## The order of the keys -/

theorem stringCompare_self (a : List Nat) : stringCompare a a = Ordering.eq := by
  induction a with
  | nil => rfl
  | cons x xs ih => simp [stringCompare, ih]

theorem stringCompare_eq_iff (a b : List Nat) : stringCompare a b = Ordering.eq ↔ a = b := by
  induction a generalizing b with
  | nil => cases b <;> simp [stringCompare]
  | cons x xs ih =>
    cases b with
    | nil => simp [stringCompare]
    | cons y ys =>
      simp only [stringCompare]
      by_cases h1 : x < y
      · simp only [h1, if_true]
        constructor
        · intro h; cases h
        · intro h; injection h with h _; omega
      · by_cases h2 : y < x
        · simp only [h1, h2, if_true, if_false]
          constructor
          · intro h; cases h
          · intro h; injection h with h _; omega
        · have hxy : x = y := by omega
          simp only [h1, h2, if_false, ih ys]
          constructor
          · intro h; rw [hxy, h]
          · intro h; injection h

theorem stringCompare_lt_trans (a b c : List Nat) (h1 : stringCompare a b = Ordering.lt)
    (h2 : stringCompare b c = Ordering.lt) : stringCompare a c = Ordering.lt := by
  induction a generalizing b c with
  | nil =>
    cases b with
    | nil => simp [stringCompare] at h1
    | cons y ys =>
      cases c with
      | nil => simp [stringCompare] at h2
      | cons z zs => rfl
  | cons x xs ih =>
    cases b with
    | nil => simp [stringCompare] at h1
    | cons y ys =>
      cases c with
      | nil => simp [stringCompare] at h2
      | cons z zs =>
        simp only [stringCompare] at h1 h2 ⊢
        by_cases hxy : x < y
        · by_cases hyz : y < z
          · have : x < z := by omega
            simp [this]
          · by_cases hzy : z < y
            · simp [hyz, hzy] at h2
            · have : x < z := by omega
              simp [this]
        · by_cases hyx : y < x
          · simp [hxy, hyx] at h1
          · simp only [hxy, hyx, if_false] at h1
            have hxe : x = y := by omega
            subst hxe
            by_cases hyz : x < z
            · simp [hyz]
            · by_cases hzy : z < x
              · simp [hyz, hzy] at h2
              · simp only [hyz, hzy, if_false] at h2 ⊢
                exact ih ys zs h1 h2

theorem stringCompare_total (a b : List Nat) (h1 : stringCompare a b ≠ Ordering.lt)
    (h2 : stringCompare b a ≠ Ordering.lt) : a = b := by
  induction a generalizing b with
  | nil =>
    cases b with
    | nil => rfl
    | cons y ys => simp [stringCompare] at h1
  | cons x xs ih =>
    cases b with
    | nil => simp [stringCompare] at h2
    | cons y ys =>
      simp only [stringCompare] at h1 h2
      by_cases hxy : x < y
      · simp [hxy] at h1
      · by_cases hyx : y < x
        · simp [hyx] at h2
        · simp only [hxy, hyx, if_false] at h1 h2
          have hxe : x = y := by omega
          rw [hxe, ih ys h1 h2]

theorem User.less_iff_spaceship (a b : User) :
    User.less a b = true ↔ User.spaceship a b = Ordering.lt := by
  unfold User.less
  cases User.spaceship a b <;> simp

theorem User.less_iff (a b : User) :
    User.less a b = true ↔
      a.code < b.code ∨ (a.code = b.code ∧ stringCompare a.username b.username = Ordering.lt) := by
  rw [User.less_iff_spaceship]
  unfold User.spaceship intCompare
  by_cases h1 : a.code < b.code
  · simp [h1]
  · by_cases h2 : b.code < a.code
    · simp only [h1, h2, if_true, if_false]
      constructor
      · intro h; simp at h
      · rintro (h | ⟨h, _⟩)
        · exact absurd h (by simp)
        · omega
    · have he : a.code = b.code := by omega
      simp [h1, h2, he]

theorem User.less_irrefl (a : User) : User.less a a = false := by
  cases h : User.less a a with
  | false => rfl
  | true =>
    rcases (User.less_iff a a).1 h with h1 | ⟨_, h2⟩
    · omega
    · rw [stringCompare_self] at h2; cases h2

theorem User.less_trans (a b c : User) (h1 : User.less a b = true) (h2 : User.less b c = true) :
    User.less a c = true := by
  rw [User.less_iff] at h1 h2 ⊢
  rcases h1 with h1 | ⟨e1, s1⟩ <;> rcases h2 with h2 | ⟨e2, s2⟩
  · left; omega
  · left; omega
  · left; omega
  · right; exact ⟨by omega, stringCompare_lt_trans _ _ _ s1 s2⟩

theorem User.less_asymm (a b : User) (h1 : User.less a b = true) : User.less b a = false := by
  cases h : User.less b a with
  | false => rfl
  | true =>
    have := User.less_trans a b a h1 h
    rw [User.less_irrefl] at this; cases this

/-- Keys that `std::less<User>` does not tell apart are the same user. -/
theorem User.eq_of_not_less (a b : User) (h1 : User.less a b = false)
    (h2 : User.less b a = false) : a = b := by
  have n1 : ¬ (User.less a b = true) := by simp [h1]
  have n2 : ¬ (User.less b a = true) := by simp [h2]
  rw [User.less_iff] at n1 n2
  push_neg at n1 n2
  have hc : a.code = b.code := by omega
  have hs := stringCompare_total a.username b.username (n1.2 hc) (n2.2 hc.symm)
  cases a; cases b; simp_all

/-! ## The container -/

theorem Map.find_insert_self (m : Map) (k : User) (v : IPAddress) :
    Map.find (Map.insert m (k, v)) k = some ((Map.find m k).getD v) := by
  induction m with
  | nil => simp [Map.insert, Map.find, User.less_irrefl]
  | cons e rest ih =>
    simp only [Map.insert, Map.find]
    by_cases h1 : User.less k e.1 = true
    · simp [h1, Map.find, User.less_irrefl]
    · by_cases h2 : User.less e.1 k = true
      · simp [h1, h2, Map.find, ih]
      · simp [h1, h2, Map.find]

theorem Map.find_insert_of_ne (m : Map) (k k1 : User) (v : IPAddress) (hne : k ≠ k1) :
    Map.find (Map.insert m (k1, v)) k = Map.find m k := by
  induction m with
  | nil =>
    simp only [Map.insert, Map.find]
    by_cases h1 : User.less k k1 = true
    · simp [h1]
    · by_cases h2 : User.less k1 k = true
      · simp [h1, h2]
      · exact absurd (User.eq_of_not_less k k1 (by simpa using h1) (by simpa using h2)) hne
  | cons e rest ih =>
    simp only [Map.insert]
    by_cases h1 : User.less k1 e.1 = true
    · simp only [h1, if_true]
      rw [Map.find]
      by_cases h3 : User.less k k1 = true
      · have h4 := User.less_trans k k1 e.1 h3 h1
        simp [h3, h4, Map.find]
      · by_cases h5 : User.less k1 k = true
        · simp [h3, h5]
        · exact absurd (User.eq_of_not_less k k1 (by simpa using h3) (by simpa using h5)) hne
    · by_cases h2 : User.less e.1 k1 = true
      · simp only [h1, h2, if_true, if_false, Map.find, ih]
      · simp [h1, h2]

theorem Map.size_insert (m : Map) (k : User) (v : IPAddress) :
    Map.size (Map.insert m (k, v)) = Map.size m + (if Map.find m k = none then 1 else 0) := by
  induction m with
  | nil => simp [Map.insert, Map.find, Map.size]
  | cons e rest ih =>
    simp only [Map.insert, Map.find]
    by_cases h1 : User.less k e.1 = true
    · simp [h1, Map.size]
    · by_cases h2 : User.less e.1 k = true
      · simp only [h1, h2, if_true, if_false, Bool.false_eq_true]
        simp only [Map.size, List.length_cons] at ih ⊢
        rw [ih]; omega
      · simp [h1, h2, Map.size]

theorem Map.mem_keys_insert (m : Map) (kv : User × IPAddress) (k : User) :
    k ∈ Map.keys (Map.insert m kv) ↔ k = kv.1 ∨ k ∈ Map.keys m := by
  induction m with
  | nil => simp [Map.insert, Map.keys]
  | cons e rest ih =>
    simp only [Map.insert]
    by_cases h1 : User.less kv.1 e.1 = true
    · simp [h1, Map.keys]
    · by_cases h2 : User.less e.1 kv.1 = true
      · simp only [h1, h2, if_true, if_false, Bool.false_eq_true]
        simp only [Map.keys, List.map_cons, List.mem_cons] at ih ⊢
        rw [ih]; tauto
      · have he : kv.1 = e.1 := User.eq_of_not_less _ _ (by simpa using h1) (by simpa using h2)
        simp only [h1, h2, if_false, Bool.false_eq_true]
        simp only [Map.keys, List.map_cons, List.mem_cons]
        constructor
        · intro h; exact Or.inr h
        · rintro (h | h)
          · left; rw [h, he]
          · exact h

theorem Map.sorted_empty : Map.Sorted Map.empty := List.Pairwise.nil

theorem Map.sorted_insert (m : Map) (kv : User × IPAddress) (h : Map.Sorted m) :
    Map.Sorted (Map.insert m kv) := by
  induction m with
  | nil => simp [Map.insert, Map.Sorted, Map.keys]
  | cons e rest ih =>
    have hrest : Map.Sorted rest := by
      unfold Map.Sorted Map.keys at h ⊢
      rw [List.map_cons, List.pairwise_cons] at h
      exact h.2
    have hhead : ∀ k ∈ Map.keys rest, User.less e.1 k = true := by
      unfold Map.Sorted Map.keys at h
      rw [List.map_cons, List.pairwise_cons] at h
      exact h.1
    simp only [Map.insert]
    by_cases h1 : User.less kv.1 e.1 = true
    · simp only [h1, if_true]
      unfold Map.Sorted Map.keys
      rw [List.map_cons, List.pairwise_cons]
      refine ⟨?_, h⟩
      intro k hk
      rw [List.map_cons, List.mem_cons] at hk
      rcases hk with hk | hk
      · rw [hk]; exact h1
      · exact User.less_trans _ _ _ h1 (hhead k hk)
    · by_cases h2 : User.less e.1 kv.1 = true
      · simp only [h1, h2, if_true, if_false]
        unfold Map.Sorted
        show List.Pairwise _ (e.1 :: Map.keys (Map.insert rest kv))
        rw [List.pairwise_cons]
        refine ⟨?_, ih hrest⟩
        intro k hk
        rcases (Map.mem_keys_insert rest kv k).1 hk with hk | hk
        · rw [hk]; exact h2
        · exact hhead k hk
      · simp only [h1, h2, if_false]; exact h

theorem Map.nodup_keys_of_sorted (m : Map) (h : Map.Sorted m) : (Map.keys m).Nodup := by
  unfold Map.Sorted at h
  refine List.Pairwise.imp ?_ h
  intro a b hab he
  rw [he, User.less_irrefl] at hab
  cases hab

/-- In a sorted map, `find` reaches every key that is stored. -/
theorem Map.find_isSome_of_mem (m : Map) (k : User) (h : Map.Sorted m) (hk : k ∈ Map.keys m) :
    Map.find m k ≠ none := by
  induction m with
  | nil => simp [Map.keys] at hk
  | cons e rest ih =>
    have hrest : Map.Sorted rest := by
      unfold Map.Sorted Map.keys at h ⊢
      rw [List.map_cons, List.pairwise_cons] at h
      exact h.2
    have hhead : ∀ k ∈ Map.keys rest, User.less e.1 k = true := by
      unfold Map.Sorted Map.keys at h
      rw [List.map_cons, List.pairwise_cons] at h
      exact h.1
    simp only [Map.keys, List.map_cons, List.mem_cons] at hk
    simp only [Map.find]
    rcases hk with hk | hk
    · subst hk; simp [User.less_irrefl]
    · have h2 := hhead k hk
      have h1 := User.less_asymm _ _ h2
      simp only [h1, h2, if_true]
      exact ih hrest hk

theorem Map.mem_keys_of_find (m : Map) (k : User) (v : IPAddress) (h : Map.find m k = some v) :
    k ∈ Map.keys m := by
  induction m with
  | nil => simp [Map.find] at h
  | cons e rest ih =>
    simp only [Map.find] at h
    simp only [Map.keys, List.map_cons, List.mem_cons]
    by_cases h1 : User.less k e.1 = true
    · simp [h1] at h
    · by_cases h2 : User.less e.1 k = true
      · simp only [h1, h2, if_true, if_false] at h
        exact Or.inr (ih h)
      · exact Or.inl (User.eq_of_not_less _ _ (by simpa using h1) (by simpa using h2))

/-! ## Selection, handles and scopes -/

theorem mutex_eq_getElem (r : UserIPRegistration) (i : Nat) (h : i < r._partitions.length) :
    r.mutex i = (r._partitions[i]).2 := by
  unfold UserIPRegistration.mutex
  rw [List.getElem?_eq_getElem h]

theorem container_eq_getElem (r : UserIPRegistration) (i : Nat) (h : i < r._partitions.length) :
    r.container i = (r._partitions[i]).1 := by
  unfold UserIPRegistration.container
  rw [List.getElem?_eq_getElem h]

/-- What `getStorage` does on a registry that has partitions. -/
theorem getStorage_eq (strHash : List Nat → Nat) (r : UserIPRegistration) (key : User)
    (hN : 0 < r._partitions.length) :
    r.getStorage strHash key =
      match (r.mutex (hashUser strHash key % r._partitions.length)).lock with
      | none => Except.error Fault.wouldBlock
      | some held =>
        Except.ok (⟨hashUser strHash key % r._partitions.length,
            hashUser strHash key % r._partitions.length, true⟩,
          ⟨r._partitions.modify (fun p => (p.1, held))
            (hashUser strHash key % r._partitions.length)⟩) := by
  have h0 : ¬ r._partitions.length = 0 := by omega
  have hlt : hashUser strHash key % r._partitions.length < r._partitions.length :=
    Nat.mod_lt _ hN
  unfold UserIPRegistration.getStorage
  simp only [h0, dite_false]
  rw [mutex_eq_getElem r _ hlt]

/-- What `getSharedStorage` does on a registry that has partitions. -/
theorem getSharedStorage_eq (strHash : List Nat → Nat) (r : UserIPRegistration) (key : User)
    (hN : 0 < r._partitions.length) :
    r.getSharedStorage strHash key =
      match (r.mutex (hashUser strHash key % r._partitions.length)).lock_shared with
      | none => Except.error Fault.wouldBlock
      | some held =>
        Except.ok (⟨hashUser strHash key % r._partitions.length,
            hashUser strHash key % r._partitions.length, false⟩,
          ⟨r._partitions.modify (fun p => (p.1, held))
            (hashUser strHash key % r._partitions.length)⟩) := by
  have h0 : ¬ r._partitions.length = 0 := by omega
  have hlt : hashUser strHash key % r._partitions.length < r._partitions.length :=
    Nat.mod_lt _ hN
  unfold UserIPRegistration.getSharedStorage
  simp only [h0, dite_false]
  rw [mutex_eq_getElem r _ hlt]

theorem getStorage_empty (strHash : List Nat → Nat) (r : UserIPRegistration) (key : User)
    (hN : r._partitions.length = 0) :
    r.getStorage strHash key = Except.error Fault.moduloByZero := by
  unfold UserIPRegistration.getStorage
  simp [hN]

theorem getSharedStorage_empty (strHash : List Nat → Nat) (r : UserIPRegistration) (key : User)
    (hN : r._partitions.length = 0) :
    r.getSharedStorage strHash key = Except.error Fault.moduloByZero := by
  unfold UserIPRegistration.getSharedStorage
  simp [hN]

theorem mutex_of_quiescent (r : UserIPRegistration) (hq : r.Quiescent) (i : Nat) :
    r.mutex i = SharedMutex.free := by
  unfold UserIPRegistration.mutex
  cases h : r._partitions[i]? with
  | none => rfl
  | some p => exact hq p (List.getElem?_mem h)

/-- Modifying one position of a list with a function that fixes the element there changes
nothing. -/
theorem modify_fix {α : Type} (f : α → α) (l : List α) (i : Nat)
    (h : ∀ a, l[i]? = some a → f a = a) : l.modify f i = l := by
  apply List.ext_getElem?
  intro j
  rw [List.getElem?_modify]
  by_cases hij : i = j
  · subst hij
    simp only [if_true]
    cases ha : l[i]? with
    | none => rfl
    | some a => simp [h a ha]
  · simp [hij]

/-- On a registry with partitions and no handle outstanding, a login block is an insert
into the container of the selected partition; the locks are free again afterwards. -/
theorem login_eq (strHash : List Nat → Nat) (r : UserIPRegistration) (kv : User × IPAddress)
    (hN : 0 < r._partitions.length) (hq : r.Quiescent) :
    login strHash r kv =
      Except.ok ⟨r._partitions.modify (fun p => (p.1.insert kv, p.2))
        (hashUser strHash kv.1 % r._partitions.length)⟩ := by
  have hlt : hashUser strHash kv.1 % r._partitions.length < r._partitions.length :=
    Nat.mod_lt _ hN
  unfold login UserIPRegistration.withStorage
  rw [getStorage_eq strHash r kv.1 hN, mutex_of_quiescent r hq]
  simp only [SharedMutex.lock, SharedMutex.free, and_self, if_true]
  simp only [Storage.destroy, Storage.assign, Storage.arrow, if_true]
  congr 2
  apply List.ext_getElem?
  intro j
  simp only [List.getElem?_modify, List.getElem?_modify_eq]
  by_cases hj : hashUser strHash kv.1 % r._partitions.length = j
  · subst hj
    rw [List.getElem?_eq_getElem hlt]
    have hm := mutex_of_quiescent r hq (hashUser strHash kv.1 % r._partitions.length)
    rw [mutex_eq_getElem r _ hlt] at hm
    simp [SharedMutex.unlock, hm, SharedMutex.free]
  · simp [hj]

/-- On a registry with partitions and no handle outstanding, a lookup reads the container
of the selected partition and leaves the registry as it was. -/
theorem lookup_eq (strHash : List Nat → Nat) (r : UserIPRegistration) (key : User)
    (hN : 0 < r._partitions.length) (hq : r.Quiescent) :
    lookup strHash r key =
      Except.ok ((r.container (hashUser strHash key % r._partitions.length)).find key, r) := by
  have hlt : hashUser strHash key % r._partitions.length < r._partitions.length :=
    Nat.mod_lt _ hN
  unfold lookup UserIPRegistration.withSharedStorage
  rw [getSharedStorage_eq strHash r key hN, mutex_of_quiescent r hq]
  simp only [SharedMutex.lock_shared, SharedMutex.free, if_true]
  simp only [Storage.destroy, Storage.arrow]
  have hm := mutex_of_quiescent r hq (hashUser strHash key % r._partitions.length)
  rw [mutex_eq_getElem r _ hlt] at hm
  have hc : r.container (hashUser strHash key % r._partitions.length)
      = (r._partitions[hashUser strHash key % r._partitions.length]).1 :=
    container_eq_getElem r _ hlt
  have e1 : (List.modify (fun p : Partition => (p.1, if false = true then p.2.unlock
        else p.2.unlock_shared))
      (hashUser strHash key % r._partitions.length)
      (List.modify (fun p : Partition => (p.1, (⟨false, 0 + 1⟩ : SharedMutex)))
        (hashUser strHash key % r._partitions.length) r._partitions)) = r._partitions := by
    rw [List.modify_modify_eq]
    apply modify_fix
    intro a ha
    rw [List.getElem?_eq_getElem hlt] at ha
    injection ha with ha
    subst ha
    simp only [SharedMutex.unlock_shared, Bool.false_eq_true, if_false]
    exact Prod.ext rfl (by rw [hm]; rfl)
  simp only [List.getElem?_modify_eq, List.getElem?_eq_getElem hlt, Option.map_some]
  rw [hc]
  simp only [e1]

/-! ## Invariants of the registry -/

theorem inserted_length (strHash : List Nat → Nat) (r : UserIPRegistration)
    (kv : User × IPAddress) :
    (r.inserted strHash kv)._partitions.length = r._partitions.length := by
  simp [UserIPRegistration.inserted]

theorem inserted_quiescent (strHash : List Nat → Nat) (r : UserIPRegistration)
    (kv : User × IPAddress) (hq : r.Quiescent) : (r.inserted strHash kv).Quiescent := by
  intro p hp
  obtain ⟨j, hj⟩ := List.getElem?_of_mem hp
  simp only [UserIPRegistration.inserted, List.getElem?_modify] at hj
  cases hq0 : r._partitions[j]? with
  | none => simp [hq0] at hj
  | some q =>
    have hq1 := hq q (List.getElem?_mem hq0)
    rw [hq0] at hj
    by_cases hi : hashUser strHash kv.1 % r._partitions.length = j
    · simp only [hi, if_true, Option.map_some'] at hj
      injection hj with hj
      rw [← hj]; exact hq1
    · simp only [hi, if_false, Option.map_some', id] at hj
      injection hj with hj
      rw [← hj]; exact hq1

theorem inserted_container (strHash : List Nat → Nat) (r : UserIPRegistration)
    (kv : User × IPAddress) (i : Nat) (hi : i < r._partitions.length) :
    (r.inserted strHash kv).container i =
      if hashUser strHash kv.1 % r._partitions.length = i then (r.container i).insert kv
      else r.container i := by
  unfold UserIPRegistration.container UserIPRegistration.inserted
  simp only [List.getElem?_modify, List.getElem?_eq_getElem hi]
  by_cases h : hashUser strHash kv.1 % r._partitions.length = i
  · simp [h]
  · simp [h]

theorem inserted_mutex (strHash : List Nat → Nat) (r : UserIPRegistration)
    (kv : User × IPAddress) (i : Nat) :
    (r.inserted strHash kv).mutex i = r.mutex i := by
  unfold UserIPRegistration.mutex UserIPRegistration.inserted
  simp only [List.getElem?_modify]
  cases h0 : r._partitions[i]? with
  | none => simp
  | some q =>
    by_cases h : hashUser strHash kv.1 % r._partitions.length = i
    · simp [h]
    · simp [h]

theorem inserted_wellFormed (strHash : List Nat → Nat) (r : UserIPRegistration)
    (kv : User × IPAddress) (hw : r.WellFormed strHash) :
    (r.inserted strHash kv).WellFormed strHash := by
  intro j p hj
  rw [inserted_length]
  simp only [UserIPRegistration.inserted, List.getElem?_modify] at hj
  cases hq0 : r._partitions[j]? with
  | none => simp [hq0] at hj
  | some q =>
    obtain ⟨hs, hk⟩ := hw j q hq0
    rw [hq0] at hj
    by_cases hi : hashUser strHash kv.1 % r._partitions.length = j
    · simp only [hi, if_true, Option.map_some'] at hj
      injection hj with hj
      subst hj
      refine ⟨Map.sorted_insert _ _ hs, ?_⟩
      intro k hkm
      rcases (Map.mem_keys_insert q.1 kv k).1 hkm with h | h
      · rw [h]; exact hi
      · exact hk k h
    · simp only [hi, if_false, Option.map_some', id] at hj
      injection hj with hj
      subst hj
      exact ⟨hs, hk⟩

theorem login_eq_inserted (strHash : List Nat → Nat) (r : UserIPRegistration)
    (kv : User × IPAddress) (hN : 0 < r._partitions.length) (hq : r.Quiescent) :
    login strHash r kv = Except.ok (r.inserted strHash kv) :=
  login_eq strHash r kv hN hq

/-- A sequence of login blocks on a registry with partitions and no handle outstanding runs
to its end, and is the sequence of the inserts. -/
theorem logins_eq (strHash : List Nat → Nat) (kvs : List (User × IPAddress)) :
    ∀ (r : UserIPRegistration), 0 < r._partitions.length → r.Quiescent →
      logins strHash r kvs = Except.ok (kvs.foldl (fun s kv => s.inserted strHash kv) r) := by
  induction kvs with
  | nil => intro r _ _; rfl
  | cons kv rest ih =>
    intro r hN hq
    rw [logins, login_eq_inserted strHash r kv hN hq]
    simp only [List.foldl_cons]
    exact ih _ (by rw [inserted_length]; exact hN) (inserted_quiescent strHash r kv hq)

theorem foldl_inserted_length (strHash : List Nat → Nat) (kvs : List (User × IPAddress)) :
    ∀ (r : UserIPRegistration),
      (kvs.foldl (fun s kv => s.inserted strHash kv) r)._partitions.length
        = r._partitions.length := by
  induction kvs with
  | nil => intro r; rfl
  | cons kv rest ih => intro r; rw [List.foldl_cons, ih, inserted_length]

theorem foldl_inserted_quiescent (strHash : List Nat → Nat) (kvs : List (User × IPAddress)) :
    ∀ (r : UserIPRegistration), r.Quiescent →
      (kvs.foldl (fun s kv => s.inserted strHash kv) r).Quiescent := by
  induction kvs with
  | nil => intro r h; exact h
  | cons kv rest ih =>
    intro r h; rw [List.foldl_cons]; exact ih _ (inserted_quiescent strHash r kv h)

theorem foldl_inserted_wellFormed (strHash : List Nat → Nat) (kvs : List (User × IPAddress)) :
    ∀ (r : UserIPRegistration), r.WellFormed strHash →
      (kvs.foldl (fun s kv => s.inserted strHash kv) r).WellFormed strHash := by
  induction kvs with
  | nil => intro r h; exact h
  | cons kv rest ih =>
    intro r h; rw [List.foldl_cons]; exact ih _ (inserted_wellFormed strHash r kv h)

/-- The registry the constructor builds. -/
theorem fresh_length (n : Nat) :
    (⟨List.replicate n freshPartition⟩ : UserIPRegistration)._partitions.length = n := by
  simp

theorem fresh_quiescent (n : Nat) :
    (⟨List.replicate n freshPartition⟩ : UserIPRegistration).Quiescent := by
  intro p hp
  rw [List.eq_of_mem_replicate hp]
  rfl

theorem fresh_wellFormed (strHash : List Nat → Nat) (n : Nat) :
    (⟨List.replicate n freshPartition⟩ : UserIPRegistration).WellFormed strHash := by
  intro i p hp
  have hm : p ∈ List.replicate n freshPartition := List.getElem?_mem hp
  rw [List.eq_of_mem_replicate hm]
  refine ⟨Map.sorted_empty, ?_⟩
  intro k hk
  simp [freshPartition, Map.empty, Map.keys] at hk

theorem fresh_container (n i : Nat) :
    (⟨List.replicate n freshPartition⟩ : UserIPRegistration).container i = Map.empty := by
  unfold UserIPRegistration.container
  cases h : (List.replicate n freshPartition)[i]? with
  | none => rfl
  | some p =>
    have hm : p ∈ List.replicate n freshPartition := List.getElem?_mem h
    rw [List.eq_of_mem_replicate hm]
    rfl

theorem mem_storedKeys (r : UserIPRegistration) (k : User) :
    k ∈ r.storedKeys ↔ ∃ i, i < r._partitions.length ∧ k ∈ (r.container i).keys := by
  unfold UserIPRegistration.storedKeys
  rw [List.mem_flatMap]
  constructor
  · rintro ⟨p, hp, hk⟩
    obtain ⟨i, hi⟩ := List.getElem?_of_mem hp
    have hlt : i < r._partitions.length := by
      rcases Nat.lt_or_ge i r._partitions.length with h | h
      · exact h
      · rw [List.getElem?_eq_none h] at hi; cases hi
    refine ⟨i, hlt, ?_⟩
    unfold UserIPRegistration.container
    rw [hi]; exact hk
  · rintro ⟨i, hi, hk⟩
    refine ⟨r._partitions[i], List.getElem_mem hi, ?_⟩
    rw [container_eq_getElem r i hi] at hk
    exact hk

theorem wellFormed_index (strHash : List Nat → Nat) (r : UserIPRegistration)
    (hw : r.WellFormed strHash) (i : Nat) (hi : i < r._partitions.length) (k : User)
    (hk : k ∈ (r.container i).keys) : hashUser strHash k % r._partitions.length = i := by
  rw [container_eq_getElem r i hi] at hk
  exact (hw i r._partitions[i] (List.getElem?_eq_getElem hi)).2 k hk

theorem storedKeys_nodup (strHash : List Nat → Nat) (r : UserIPRegistration)
    (hw : r.WellFormed strHash) : r.storedKeys.Nodup := by
  unfold UserIPRegistration.storedKeys
  rw [List.nodup_flatMap]
  constructor
  · intro p hp
    obtain ⟨i, hi⟩ := List.getElem?_of_mem hp
    exact Map.nodup_keys_of_sorted _ (hw i p hi).1
  · rw [List.pairwise_iff_getElem]
    intro i j hi hj hij
    show List.Disjoint (r._partitions[i]).1.keys (r._partitions[j]).1.keys
    intro k hk1 hk2
    have h1 := (hw i _ (List.getElem?_eq_getElem hi)).2 k hk1
    have h2 := (hw j _ (List.getElem?_eq_getElem hj)).2 k hk2
    omega

theorem storedKeys_length (r : UserIPRegistration) : r.storedKeys.length = r.sizeSum := by
  unfold UserIPRegistration.storedKeys UserIPRegistration.sizeSum
  rw [List.length_flatMap]
  congr 1
  apply List.map_congr_left
  intro p _
  simp [Map.keys, Map.size]

theorem sum_map_modify {α : Type} (g : α → Nat) (f : α → α) :
    ∀ (l : List α) (i : Nat) (h : i < l.length),
      ((l.modify f i).map g).sum + g l[i] = (l.map g).sum + g (f l[i]) := by
  intro l
  induction l with
  | nil => intro i h; simp at h
  | cons a rest ih =>
    intro i h
    cases i with
    | zero => simp [List.modify_zero_cons]; omega
    | succ j =>
      have hj : j < rest.length := by simpa using h
      have := ih j hj
      simp only [List.modify_succ_cons, List.map_cons, List.sum_cons, List.getElem_cons_succ]
      omega

/-- What a lookup of `k` reads: the result of `find` in the container selected for `k`. -/
theorem inserted_find (strHash : List Nat → Nat) (r : UserIPRegistration)
    (kv : User × IPAddress) (k : User) (hN : 0 < r._partitions.length) :
    ((r.inserted strHash kv).container (hashUser strHash k % r._partitions.length)).find k =
      if k = kv.1 then
        some (((r.container (hashUser strHash k % r._partitions.length)).find k).getD kv.2)
      else (r.container (hashUser strHash k % r._partitions.length)).find k := by
  have hlt : hashUser strHash k % r._partitions.length < r._partitions.length :=
    Nat.mod_lt _ hN
  rw [inserted_container strHash r kv _ hlt]
  by_cases hk : k = kv.1
  · subst hk
    simp only [if_true]
    exact Map.find_insert_self _ _ _
  · simp only [hk, if_false]
    by_cases hi : hashUser strHash kv.1 % r._partitions.length
        = hashUser strHash k % r._partitions.length
    · simp only [hi, if_true]
      exact Map.find_insert_of_ne _ k kv.1 kv.2 hk
    · simp only [hi, if_false]

theorem inserted_sizeSum (strHash : List Nat → Nat) (r : UserIPRegistration)
    (kv : User × IPAddress) (hN : 0 < r._partitions.length) :
    (r.inserted strHash kv).sizeSum =
      r.sizeSum +
        (if (r.container (hashUser strHash kv.1 % r._partitions.length)).find kv.1 = none
          then 1 else 0) := by
  have hlt : hashUser strHash kv.1 % r._partitions.length < r._partitions.length :=
    Nat.mod_lt _ hN
  have h := sum_map_modify (fun p : Partition => p.1.size)
    (fun p : Partition => (p.1.insert kv, p.2)) r._partitions _ hlt
  have hs := Map.size_insert (r._partitions[hashUser strHash kv.1 % r._partitions.length]).1
    kv.1 kv.2
  rw [container_eq_getElem r _ hlt]
  unfold UserIPRegistration.sizeSum UserIPRegistration.inserted
  simp only [Prod.mk.eta] at h hs ⊢
  split_ifs at hs ⊢ <;> omega

/-- Keys that are not stored and that are pairwise distinct each add one entry. -/
theorem foldl_inserted_sizeSum (strHash : List Nat → Nat) (kvs : List (User × IPAddress)) :
    ∀ (r : UserIPRegistration), 0 < r._partitions.length →
      (kvs.map Prod.fst).Nodup →
      (∀ kv ∈ kvs,
        (r.container (hashUser strHash kv.1 % r._partitions.length)).find kv.1 = none) →
      (kvs.foldl (fun s kv => s.inserted strHash kv) r).sizeSum = r.sizeSum + kvs.length := by
  induction kvs with
  | nil => intro r _ _ _; rfl
  | cons kv rest ih =>
    intro r hN hnd habs
    rw [List.map_cons, List.nodup_cons] at hnd
    rw [List.foldl_cons]
    have hN1 : 0 < (r.inserted strHash kv)._partitions.length := by
      rw [inserted_length]; exact hN
    rw [ih (r.inserted strHash kv) hN1 hnd.2, inserted_sizeSum strHash r kv hN,
      habs kv (List.mem_cons_self _ _)]
    · simp only [if_true, List.length_cons]; omega
    · intro kv1 hkv1
      rw [inserted_length, inserted_find strHash r kv kv1.1 hN]
      have hne : kv1.1 ≠ kv.1 := by
        intro he
        exact hnd.1 (he ▸ List.mem_map_of_mem Prod.fst hkv1)
      simp only [hne, if_false]
      exact habs kv1 (List.mem_cons_of_mem _ hkv1)

theorem fresh_sizeSum (n : Nat) :
    (⟨List.replicate n freshPartition⟩ : UserIPRegistration).sizeSum = 0 := by
  unfold UserIPRegistration.sizeSum
  induction n with
  | zero => rfl
  | succ n ih =>
    rw [List.replicate_succ, List.map_cons, List.sum_cons, ih]
    rfl

/-! ## Schedules -/

theorem flatten_perm_of_getElem? {α : Type} :
    ∀ (threads : List (List α)) (i : Nat) (x : α) (rest : List α),
      threads[i]? = some (x :: rest) →
      List.Perm threads.flatten (x :: (threads.set i rest).flatten) := by
  intro threads
  induction threads with
  | nil => intro i x rest h; simp at h
  | cons t ts ih =>
    intro i x rest h
    cases i with
    | zero =>
      simp only [List.getElem?_cons_zero, Option.some.injEq] at h
      subst h
      simp
    | succ j =>
      simp only [List.getElem?_cons_succ] at h
      have := ih j x rest h
      simp only [List.set_cons_succ, List.flatten_cons]
      exact (List.Perm.append_left t this).trans List.perm_middle

/-- Every schedule is a rearrangement of all the steps of all the threads. -/
theorem Interleaving.perm {α : Type} {threads : List (List α)} {out : List α}
    (h : Interleaving threads out) : List.Perm out threads.flatten := by
  induction h with
  | done threads hall =>
    have : threads.flatten = [] := by
      rw [List.flatten_eq_nil_iff]; exact hall
    rw [this]
  | step threads i x rest out hi _ ih =>
    exact (List.Perm.cons x ih).trans (flatten_perm_of_getElem? threads i x rest hi).symm

theorem length_flatten_of_const {α : Type} (D : Nat) :
    ∀ (threads : List (List α)), (∀ t ∈ threads, t.length = D) →
      threads.flatten.length = threads.length * D := by
  intro threads
  induction threads with
  | nil => intro _; simp
  | cons t ts ih =>
    intro h
    rw [List.flatten_cons, List.length_append, h t (List.mem_cons_self _ _),
      ih (fun u hu => h u (List.mem_cons_of_mem _ hu)), List.length_cons]
    ring

/-! ## Partition disjointness -/

/-- C1 (partition disjointness). On a registry constructed with `N ≥ 1` partitions, every
sequence of login blocks (`getStorage(k)->insert((k, v))`) runs to its end, and afterwards
every stored key is in the container of partition `i` exactly for `i = hash(k) mod N`, the
index `getStorage` computes; no key is stored twice. -/
theorem partition_disjointness (strHash : List Nat → Nat) (N : Nat) (r0 : UserIPRegistration)
    (kvs : List (User × IPAddress)) (hN : 1 ≤ N)
    (hc : UserIPRegistration.construct N = Except.ok r0) :
    ∃ r, logins strHash r0 kvs = Except.ok r ∧ r._partitions.length = N ∧
      r.storedKeys.Nodup ∧
      ∀ k ∈ r.storedKeys, ∀ i, i < N →
        (k ∈ (r.container i).keys ↔ i = hashUser strHash k % N) := by
  obtain ⟨_, rfl⟩ := (construct_ok_iff N r0).1 hc
  have hlen := fresh_length N
  have hr := logins_eq strHash kvs ⟨List.replicate N freshPartition⟩ (by rw [hlen]; omega)
    (fresh_quiescent N)
  have hl := foldl_inserted_length strHash kvs ⟨List.replicate N freshPartition⟩
  have hw := foldl_inserted_wellFormed strHash kvs ⟨List.replicate N freshPartition⟩
    (fresh_wellFormed strHash N)
  rw [hlen] at hl
  refine ⟨_, hr, hl, storedKeys_nodup strHash _ hw, ?_⟩
  intro k hk i hi
  constructor
  · intro hki
    have := wellFormed_index strHash _ hw i (by rw [hl]; exact hi) k hki
    rw [hl] at this
    exact this.symm
  · intro hie
    obtain ⟨j, hj, hkj⟩ := (mem_storedKeys _ k).1 hk
    have := wellFormed_index strHash _ hw j hj k hkj
    rw [hl] at this
    rw [hie, this]
    exact hkj

theorem partition_disjointness_witness :
    1 ≤ 2 ∧
    UserIPRegistration.construct 2 = Except.ok ⟨[freshPartition, freshPartition]⟩ ∧
    ∃ r, logins List.sum ⟨[freshPartition, freshPartition]⟩
        [(⟨[97], 1⟩, ⟨10⟩), (⟨[98], 2⟩, ⟨20⟩), (⟨[97], 3⟩, ⟨30⟩)] = Except.ok r ∧
      r._partitions.length = 2 ∧ r.storedKeys.Nodup ∧
      ∀ k ∈ r.storedKeys, ∀ i, i < 2 →
        (k ∈ (r.container i).keys ↔ i = hashUser List.sum k % 2) :=
  ⟨by decide, by decide,
    partition_disjointness List.sum 2 ⟨[freshPartition, freshPartition]⟩
      [(⟨[97], 1⟩, ⟨10⟩), (⟨[98], 2⟩, ⟨20⟩), (⟨[97], 3⟩, ⟨30⟩)] (by decide) (by decide)⟩

/-! ## Insert completeness -/

/-- C2 (insert completeness). `T` threads hold `D` login blocks each, all `T * D` keys
pairwise distinct. Whatever the schedule, one block at a time, on a registry constructed
with `N ≥ 1` partitions the blocks all run to their end and `size()` then returns `T * D`. -/
theorem insert_completeness (strHash : List Nat → Nat) (N T D : Nat) (r0 : UserIPRegistration)
    (threads : List (List (User × IPAddress))) (schedule : List (User × IPAddress))
    (hN : 1 ≤ N) (hc : UserIPRegistration.construct N = Except.ok r0)
    (hT : threads.length = T) (hD : ∀ t ∈ threads, t.length = D)
    (hk : (threads.flatten.map Prod.fst).Nodup)
    (hs : Interleaving threads schedule) :
    ∃ r, logins strHash r0 schedule = Except.ok r ∧ r.size = Except.ok (T * D) := by
  obtain ⟨hmax, rfl⟩ := (construct_ok_iff N r0).1 hc
  have hlen := fresh_length N
  have hpos : 0 < (⟨List.replicate N freshPartition⟩ : UserIPRegistration)._partitions.length := by
    rw [hlen]; omega
  have hr := logins_eq strHash schedule ⟨List.replicate N freshPartition⟩ hpos
    (fresh_quiescent N)
  have hl := foldl_inserted_length strHash schedule ⟨List.replicate N freshPartition⟩
  refine ⟨_, hr, ?_⟩
  rw [size_eq_sum _ (by rw [hl, hlen]; exact hmax)]
  have hperm := hs.perm
  have hnd : (schedule.map Prod.fst).Nodup := ((hperm.map Prod.fst).nodup_iff).2 hk
  have hsum := foldl_inserted_sizeSum strHash schedule ⟨List.replicate N freshPartition⟩ hpos hnd
    (by
      intro kv _
      rw [fresh_container]
      rfl)
  rw [fresh_sizeSum, Nat.zero_add] at hsum
  have hcount : schedule.length = T * D := by
    rw [hperm.length_eq, length_flatten_of_const D threads hD, hT]
  unfold UserIPRegistration.sizeSum at hsum
  rw [hsum, hcount]

theorem insert_completeness_witness :
    1 ≤ 3 ∧
    UserIPRegistration.construct 3
      = Except.ok ⟨[freshPartition, freshPartition, freshPartition]⟩ ∧
    Interleaving
      [[((⟨[97], 1⟩, ⟨10⟩) : User × IPAddress), (⟨[98], 1⟩, ⟨20⟩)],
        [(⟨[97], 2⟩, ⟨30⟩), (⟨[100], 7⟩, ⟨40⟩)]]
      [((⟨[97], 1⟩, ⟨10⟩) : User × IPAddress), (⟨[97], 2⟩, ⟨30⟩), (⟨[100], 7⟩, ⟨40⟩),
        (⟨[98], 1⟩, ⟨20⟩)] ∧
    ∃ r, logins List.sum ⟨[freshPartition, freshPartition, freshPartition]⟩
        [(⟨[97], 1⟩, ⟨10⟩), (⟨[97], 2⟩, ⟨30⟩), (⟨[100], 7⟩, ⟨40⟩), (⟨[98], 1⟩, ⟨20⟩)]
          = Except.ok r ∧
      r.size = Except.ok (2 * 2) := by
  have hs : Interleaving
      [[((⟨[97], 1⟩, ⟨10⟩) : User × IPAddress), (⟨[98], 1⟩, ⟨20⟩)],
        [(⟨[97], 2⟩, ⟨30⟩), (⟨[100], 7⟩, ⟨40⟩)]]
      [((⟨[97], 1⟩, ⟨10⟩) : User × IPAddress), (⟨[97], 2⟩, ⟨30⟩), (⟨[100], 7⟩, ⟨40⟩),
        (⟨[98], 1⟩, ⟨20⟩)] := by
    refine Interleaving.step _ 0 _ _ _ (by rfl) ?_
    refine Interleaving.step _ 1 _ _ _ (by rfl) ?_
    refine Interleaving.step _ 1 _ _ _ (by rfl) ?_
    refine Interleaving.step _ 0 _ _ _ (by rfl) ?_
    exact Interleaving.done _ (by simp)
  exact ⟨by decide, by decide, hs,
    insert_completeness List.sum 3 2 2 ⟨[freshPartition, freshPartition, freshPartition]⟩
      [[((⟨[97], 1⟩, ⟨10⟩) : User × IPAddress), (⟨[98], 1⟩, ⟨20⟩)],
        [(⟨[97], 2⟩, ⟨30⟩), (⟨[100], 7⟩, ⟨40⟩)]]
      _ (by decide) (by decide) (by decide) (by decide) (by decide) hs⟩

/-! ## Insert and lookup -/

theorem find_none_of_not_stored (r : UserIPRegistration) (k : User) (i : Nat)
    (h : k ∉ r.storedKeys) : (r.container i).find k = none := by
  cases hf : (r.container i).find k with
  | none => rfl
  | some v =>
    exfalso
    apply h
    have hk := Map.mem_keys_of_find _ k v hf
    rw [mem_storedKeys]
    refine ⟨i, ?_, hk⟩
    rcases Nat.lt_or_ge i r._partitions.length with hi | hi
    · exact hi
    · unfold UserIPRegistration.container at hk
      rw [List.getElem?_eq_none hi] at hk
      simp [Map.empty, Map.keys] at hk

/-- Inserts of other keys do not change what `find` returns for `k` in its partition. -/
theorem foldl_inserted_find_of_ne (strHash : List Nat → Nat) (k : User)
    (others : List (User × IPAddress)) :
    ∀ (r : UserIPRegistration), 0 < r._partitions.length → (∀ kv ∈ others, kv.1 ≠ k) →
      ((others.foldl (fun s kv => s.inserted strHash kv) r).container
          (hashUser strHash k % r._partitions.length)).find k
        = (r.container (hashUser strHash k % r._partitions.length)).find k := by
  induction others with
  | nil => intro r _ _; rfl
  | cons kv rest ih =>
    intro r hN hne
    rw [List.foldl_cons]
    have h1 := ih (r.inserted strHash kv) (by rw [inserted_length]; exact hN)
      (fun kv1 h => hne kv1 (List.mem_cons_of_mem _ h))
    rw [inserted_length] at h1
    rw [h1, inserted_find strHash r kv k hN]
    have : k ≠ kv.1 := fun h => hne kv (List.mem_cons_self _ _) h.symm
    simp only [this, if_false]

/-! ## The selector -/

theorem getStorage_cases (strHash : List Nat → Nat) (r : UserIPRegistration) (key : User)
    (hN : 0 < r._partitions.length) :
    r.getStorage strHash key = Except.error Fault.wouldBlock ∨
      ∃ q, r.getStorage strHash key =
        Except.ok (⟨hashUser strHash key % r._partitions.length,
          hashUser strHash key % r._partitions.length, true⟩, q) := by
  rw [getStorage_eq strHash r key hN]
  cases (r.mutex (hashUser strHash key % r._partitions.length)).lock with
  | none => exact Or.inl rfl
  | some held => exact Or.inr ⟨_, rfl⟩

theorem getSharedStorage_cases (strHash : List Nat → Nat) (r : UserIPRegistration) (key : User)
    (hN : 0 < r._partitions.length) :
    r.getSharedStorage strHash key = Except.error Fault.wouldBlock ∨
      ∃ q, r.getSharedStorage strHash key =
        Except.ok (⟨hashUser strHash key % r._partitions.length,
          hashUser strHash key % r._partitions.length, false⟩, q) := by
  rw [getSharedStorage_eq strHash r key hN]
  cases (r.mutex (hashUser strHash key % r._partitions.length)).lock_shared with
  | none => exact Or.inl rfl
  | some held => exact Or.inr ⟨_, rfl⟩

/-- The partition of a handle that `getStorage` or `getSharedStorage` returned. -/
theorem storage_of_handle (strHash : List Nat → Nat) (r : UserIPRegistration) (key : User)
    (s : Storage) (q : UserIPRegistration) (hN : 0 < r._partitions.length)
    (h : r.getStorage strHash key = Except.ok (s, q) ∨
      r.getSharedStorage strHash key = Except.ok (s, q)) :
    s.storage = hashUser strHash key % r._partitions.length ∧ s.lock = s.storage := by
  rcases h with h | h
  · rcases getStorage_cases strHash r key hN with h1 | ⟨q1, h1⟩
    · rw [h1] at h; cases h
    · rw [h1] at h; injection h with h; injection h with h _; subst h; exact ⟨rfl, rfl⟩
  · rcases getSharedStorage_cases strHash r key hN with h1 | ⟨q1, h1⟩
    · rw [h1] at h; cases h
    · rw [h1] at h; injection h with h; injection h with h _; subst h; exact ⟨rfl, rfl⟩

/-- C4 (selector range). On a registry with `N ≥ 1` partitions, `getStorage(key)` and
`getSharedStorage(key)` each either wait for the lock or return a handle on the partition
`hash(key) mod N`, an index below `N`; they never fault on the selection or the indexing.
With no handle outstanding both return their handle. -/
theorem selector_range (strHash : List Nat → Nat) (r : UserIPRegistration) (key : User)
    (hN : 1 ≤ r._partitions.length) :
    (r.getStorage strHash key = Except.error Fault.wouldBlock ∨
      ∃ s q, r.getStorage strHash key = Except.ok (s, q) ∧
        s.storage = hashUser strHash key % r._partitions.length ∧
        s.storage < r._partitions.length ∧ s.lock = s.storage) ∧
    (r.getSharedStorage strHash key = Except.error Fault.wouldBlock ∨
      ∃ s q, r.getSharedStorage strHash key = Except.ok (s, q) ∧
        s.storage = hashUser strHash key % r._partitions.length ∧
        s.storage < r._partitions.length ∧ s.lock = s.storage) ∧
    (r.Quiescent →
      (∃ s q, r.getStorage strHash key = Except.ok (s, q)) ∧
      (∃ s q, r.getSharedStorage strHash key = Except.ok (s, q))) := by
  have hpos : 0 < r._partitions.length := hN
  have hlt : hashUser strHash key % r._partitions.length < r._partitions.length :=
    Nat.mod_lt _ hpos
  refine ⟨?_, ?_, ?_⟩
  · rcases getStorage_cases strHash r key hpos with h | ⟨q, h⟩
    · exact Or.inl h
    · exact Or.inr ⟨_, q, h, rfl, hlt, rfl⟩
  · rcases getSharedStorage_cases strHash r key hpos with h | ⟨q, h⟩
    · exact Or.inl h
    · exact Or.inr ⟨_, q, h, rfl, hlt, rfl⟩
  · intro hq
    rw [getStorage_eq strHash r key hpos, getSharedStorage_eq strHash r key hpos,
      mutex_of_quiescent r hq]
    exact ⟨⟨_, _, rfl⟩, ⟨_, _, rfl⟩⟩

theorem selector_range_witness :
    1 ≤ (⟨[freshPartition, freshPartition, freshPartition]⟩ :
        UserIPRegistration)._partitions.length ∧
    (∃ s q, (⟨[freshPartition, freshPartition, freshPartition]⟩ :
        UserIPRegistration).getStorage List.sum ⟨[97, 98], 5⟩ = Except.ok (s, q) ∧
      s.storage = 0 ∧ s.storage < 3) :=
  ⟨by decide, by
    have h := (selector_range List.sum ⟨[freshPartition, freshPartition, freshPartition]⟩
      ⟨[97, 98], 5⟩ (by decide)).1
    rcases h with h | ⟨s, q, h, hs, hlt, _⟩
    · exact absurd h (by decide)
    · exact ⟨s, q, h, by rw [hs]; decide, hlt⟩⟩

/-- C5 (selector determinism). Two registries with the same partition count `N ≥ 1`,
whatever their containers and locks hold: any handle either returns for a key, from
`getStorage` or from `getSharedStorage`, is on the same partition, `hash(key) mod N`. The
index depends on the key and on `N` only. -/
theorem selector_determinism (strHash : List Nat → Nat) (r1 r2 : UserIPRegistration)
    (key : User) (s1 s2 : Storage) (q1 q2 : UserIPRegistration)
    (hN : 1 ≤ r1._partitions.length)
    (hlen : r1._partitions.length = r2._partitions.length)
    (h1 : r1.getStorage strHash key = Except.ok (s1, q1) ∨
      r1.getSharedStorage strHash key = Except.ok (s1, q1))
    (h2 : r2.getStorage strHash key = Except.ok (s2, q2) ∨
      r2.getSharedStorage strHash key = Except.ok (s2, q2)) :
    s1.storage = s2.storage ∧ s1.storage = hashUser strHash key % r1._partitions.length := by
  have e1 := (storage_of_handle strHash r1 key s1 q1 hN h1).1
  have e2 := (storage_of_handle strHash r2 key s2 q2 (by rw [← hlen]; exact hN) h2).1
  rw [← hlen] at e2
  exact ⟨e1.trans e2.symm, e1⟩

theorem selector_determinism_witness :
    (⟨[freshPartition, freshPartition]⟩ : UserIPRegistration).getStorage List.sum ⟨[97], 5⟩
      = Except.ok (⟨1, 1, true⟩, ⟨[freshPartition, (Map.empty, ⟨true, 0⟩)]⟩) ∧
    (⟨[([(⟨[98], 4⟩, ⟨7⟩)], SharedMutex.free), ([(⟨[99], 1⟩, ⟨8⟩)], ⟨false, 2⟩)]⟩ :
        UserIPRegistration).getSharedStorage List.sum ⟨[97], 5⟩
      = Except.ok (⟨1, 1, false⟩,
          ⟨[([(⟨[98], 4⟩, ⟨7⟩)], SharedMutex.free), ([(⟨[99], 1⟩, ⟨8⟩)], ⟨false, 3⟩)]⟩) ∧
    (⟨1, 1, true⟩ : Storage).storage = (⟨1, 1, false⟩ : Storage).storage :=
  ⟨by decide, by decide,
    (selector_determinism List.sum ⟨[freshPartition, freshPartition]⟩
      ⟨[([(⟨[98], 4⟩, ⟨7⟩)], SharedMutex.free), ([(⟨[99], 1⟩, ⟨8⟩)], ⟨false, 2⟩)]⟩
      ⟨[97], 5⟩ ⟨1, 1, true⟩ ⟨1, 1, false⟩
      ⟨[freshPartition, (Map.empty, ⟨true, 0⟩)]⟩
      ⟨[([(⟨[98], 4⟩, ⟨7⟩)], SharedMutex.free), ([(⟨[99], 1⟩, ⟨8⟩)], ⟨false, 3⟩)]⟩
      (by decide) (by decide) (Or.inl (by decide)) (Or.inr (by decide))).1⟩

/-! ## Construction -/

/-- C6, as stated, fails: the constructor accepts the count 0 and returns a registry with no
partitions, on which `getStorage` computes a modulo by zero. -/
theorem zero_partitions_not_rejected :
    (¬ ∃ f, UserIPRegistration.construct 0 = Except.error f) ∧
    ∃ r, UserIPRegistration.construct 0 = Except.ok r ∧ r._partitions.length = 0 ∧
      r.getStorage List.sum ⟨[97], 5⟩ = Except.error Fault.moduloByZero := by
  have hc : UserIPRegistration.construct 0 = Except.ok ⟨[]⟩ := by decide
  refine ⟨?_, ⟨[]⟩, hc, by decide, by decide⟩
  rintro ⟨f, h⟩
  rw [hc] at h
  cases h

/-- C6, amended (zero-partition construction). The constructor returns normally for the
count 0, with a registry that has no partitions; `size()` is 0 on it, and `getStorage` and
`getSharedStorage` compute a modulo by zero on it for every key. Nothing rejects the
count. -/
theorem zero_partitions_accepted (strHash : List Nat → Nat) (key : User) :
    UserIPRegistration.construct 0 = Except.ok ⟨[]⟩ ∧
    (⟨[]⟩ : UserIPRegistration)._partitions.length = 0 ∧
    (⟨[]⟩ : UserIPRegistration).size = Except.ok 0 ∧
    (⟨[]⟩ : UserIPRegistration).getStorage strHash key = Except.error Fault.moduloByZero ∧
    (⟨[]⟩ : UserIPRegistration).getSharedStorage strHash key
      = Except.error Fault.moduloByZero :=
  ⟨by decide, rfl, by decide, getStorage_empty strHash _ key rfl,
    getSharedStorage_empty strHash _ key rfl⟩

/-- For a count up to `INT_MAX` the constructor returns a registry with that many
partitions, all containers empty and all locks free, and `size()` is 0 on it. -/
theorem construct_fresh (N : Nat) (hmax : (N : Int) ≤ INT_MAX) :
    ∃ r, UserIPRegistration.construct N = Except.ok r ∧ r._partitions.length = N ∧
      (∀ i, r.container i = Map.empty) ∧ r.Quiescent ∧ r.size = Except.ok 0 := by
  refine ⟨⟨List.replicate N freshPartition⟩, construct_of_le N hmax, fresh_length N,
    fresh_container N, fresh_quiescent N, ?_⟩
  rw [size_eq_sum _ (by rw [fresh_length]; exact hmax)]
  have := fresh_sizeSum N
  unfold UserIPRegistration.sizeSum at this
  rw [this]

/-- C7 at the count `2 ^ 31 + 1`: the `int` counter of the constructor's loop reaches
`INT_MAX` while `i < partitions` still holds, and `i++` overflows. No registry with that
many partitions is returned. -/
theorem construct_overflows :
    UserIPRegistration.construct 2147483649 = Except.error Fault.signedOverflow :=
  construct_of_gt 2147483649 (by unfold INT_MAX; norm_num)

/-! ## The size -/

theorem inserted_mem_storedKeys (strHash : List Nat → Nat) (r : UserIPRegistration)
    (kv : User × IPAddress) (k : User) (hN : 0 < r._partitions.length) :
    k ∈ (r.inserted strHash kv).storedKeys ↔ k = kv.1 ∨ k ∈ r.storedKeys := by
  have hlt : hashUser strHash kv.1 % r._partitions.length < r._partitions.length :=
    Nat.mod_lt _ hN
  rw [mem_storedKeys, mem_storedKeys, inserted_length]
  constructor
  · rintro ⟨i, hi, hk⟩
    rw [inserted_container strHash r kv i hi] at hk
    by_cases he : hashUser strHash kv.1 % r._partitions.length = i
    · simp only [he, if_true] at hk
      rcases (Map.mem_keys_insert _ kv k).1 hk with h | h
      · exact Or.inl h
      · exact Or.inr ⟨i, hi, h⟩
    · simp only [he, if_false] at hk
      exact Or.inr ⟨i, hi, hk⟩
  · rintro (h | ⟨i, hi, hk⟩)
    · refine ⟨_, hlt, ?_⟩
      rw [inserted_container strHash r kv _ hlt]
      simp only [if_true]
      exact (Map.mem_keys_insert _ kv k).2 (Or.inl h)
    · refine ⟨i, hi, ?_⟩
      rw [inserted_container strHash r kv i hi]
      by_cases he : hashUser strHash kv.1 % r._partitions.length = i
      · simp only [he, if_true]
        exact (Map.mem_keys_insert _ kv k).2 (Or.inr hk)
      · simp only [he, if_false]
        exact hk

theorem foldl_inserted_mem_storedKeys (strHash : List Nat → Nat) (k : User)
    (kvs : List (User × IPAddress)) :
    ∀ (r : UserIPRegistration), 0 < r._partitions.length →
      (k ∈ (kvs.foldl (fun s kv => s.inserted strHash kv) r).storedKeys ↔
        k ∈ r.storedKeys ∨ k ∈ kvs.map Prod.fst) := by
  induction kvs with
  | nil => intro r _; simp
  | cons kv rest ih =>
    intro r hN
    rw [List.foldl_cons, ih _ (by rw [inserted_length]; exact hN),
      inserted_mem_storedKeys strHash r kv k hN]
    simp only [List.map_cons, List.mem_cons]
    tauto

theorem fresh_storedKeys (n : Nat) :
    (⟨List.replicate n freshPartition⟩ : UserIPRegistration).storedKeys = [] := by
  have h := storedKeys_length ⟨List.replicate n freshPartition⟩
  rw [fresh_sizeSum] at h
  exact List.length_eq_zero.1 h

/-- Without partitions no login block can run. -/
theorem logins_empty (strHash : List Nat → Nat) (r r1 : UserIPRegistration)
    (kvs : List (User × IPAddress)) (h0 : r._partitions.length = 0)
    (h : logins strHash r kvs = Except.ok r1) : kvs = [] ∧ r1 = r := by
  cases kvs with
  | nil =>
    simp only [logins] at h
    injection h with h
    exact ⟨rfl, h.symm⟩
  | cons kv rest =>
    exfalso
    simp only [logins, login, UserIPRegistration.withStorage,
      getStorage_empty strHash r kv.1 h0] at h
    cases h

/-- C8 (size). On every registry that the constructor returned and that login blocks have
filled since, `size()` returns the sum of the sizes of the containers of all partitions.
With no handle outstanding that sum is the number of distinct keys stored, which is the
number of distinct keys inserted. `size()` is `const`: the registry is only an input of
the embedded function, so the containers are what they were. -/
theorem size_is_sum (strHash : List Nat → Nat) (N : Nat) (r0 r : UserIPRegistration)
    (kvs : List (User × IPAddress))
    (hc : UserIPRegistration.construct N = Except.ok r0)
    (hr : logins strHash r0 kvs = Except.ok r) :
    r.size = Except.ok ((r._partitions.map (fun p => p.1.size)).sum) ∧
    r.Quiescent ∧
    (r._partitions.map (fun p => p.1.size)).sum = r.storedKeys.dedup.length ∧
    r.storedKeys.dedup.length = (kvs.map Prod.fst).dedup.length := by
  obtain ⟨hmax, rfl⟩ := (construct_ok_iff N r0).1 hc
  have hlen := fresh_length N
  rcases Nat.eq_zero_or_pos N with h0 | hpos
  · obtain ⟨rfl, rfl⟩ := logins_empty strHash _ r kvs (by rw [hlen]; exact h0) hr
    subst h0
    refine ⟨by decide, by decide, by decide, by decide⟩
  · have hpos1 : 0 < (⟨List.replicate N freshPartition⟩ :
        UserIPRegistration)._partitions.length := by rw [hlen]; exact hpos
    have he := logins_eq strHash kvs _ hpos1 (fresh_quiescent N)
    rw [he] at hr
    injection hr with hr
    subst hr
    have hl := foldl_inserted_length strHash kvs ⟨List.replicate N freshPartition⟩
    have hw := foldl_inserted_wellFormed strHash kvs ⟨List.replicate N freshPartition⟩
      (fresh_wellFormed strHash N)
    have hnd := storedKeys_nodup strHash _ hw
    refine ⟨size_eq_sum _ (by rw [hl, hlen]; exact hmax),
      foldl_inserted_quiescent strHash kvs _ (fresh_quiescent N), ?_, ?_⟩
    · rw [hnd.dedup, storedKeys_length]
      rfl
    · apply List.Perm.length_eq
      rw [List.perm_ext_iff_of_nodup (List.nodup_dedup _) (List.nodup_dedup _)]
      intro k
      rw [List.mem_dedup, List.mem_dedup,
        foldl_inserted_mem_storedKeys strHash k kvs _ hpos1, fresh_storedKeys]
      simp

theorem size_is_sum_witness :
    UserIPRegistration.construct 2 = Except.ok ⟨[freshPartition, freshPartition]⟩ ∧
    logins List.sum ⟨[freshPartition, freshPartition]⟩
        [(⟨[97], 1⟩, ⟨10⟩), (⟨[98], 2⟩, ⟨20⟩), (⟨[97], 3⟩, ⟨30⟩), (⟨[98], 2⟩, ⟨40⟩)]
      = Except.ok ⟨[([(⟨[98], 2⟩, ⟨20⟩)], SharedMutex.free),
          ([(⟨[97], 1⟩, ⟨10⟩), (⟨[97], 3⟩, ⟨30⟩)], SharedMutex.free)]⟩ ∧
    (⟨[([(⟨[98], 2⟩, ⟨20⟩)], SharedMutex.free),
        ([(⟨[97], 1⟩, ⟨10⟩), (⟨[97], 3⟩, ⟨30⟩)], SharedMutex.free)]⟩ :
      UserIPRegistration).size = Except.ok 3 :=
  ⟨by decide, by decide,
    (size_is_sum List.sum 2 ⟨[freshPartition, freshPartition]⟩ _
      [(⟨[97], 1⟩, ⟨10⟩), (⟨[98], 2⟩, ⟨20⟩), (⟨[97], 3⟩, ⟨30⟩), (⟨[98], 2⟩, ⟨40⟩)]
      (by decide) (by decide)).1⟩

/-! ## Mutual exclusion -/

theorem mutex_modify (r : UserIPRegistration) (g : SharedMutex → SharedMutex) (idx i : Nat)
    (hidx : idx < r._partitions.length) :
    (⟨r._partitions.modify (fun p => (p.1, g p.2)) idx⟩ : UserIPRegistration).mutex i =
      if i = idx then g (r.mutex idx) else r.mutex i := by
  unfold UserIPRegistration.mutex
  simp only [List.getElem?_modify]
  by_cases h : i = idx
  · subst h
    simp [List.getElem?_eq_getElem hidx]
  · have h1 : ¬ idx = i := fun e => h e.symm
    simp only [h, h1, if_false]
    cases r._partitions[i]? <;> simp

theorem mutex_assign (s : Storage) (r : UserIPRegistration) (m : Map) (i : Nat) :
    (s.assign r m).mutex i = r.mutex i := by
  unfold UserIPRegistration.mutex Storage.assign
  simp only [List.getElem?_modify]
  cases h0 : r._partitions[i]? with
  | none => simp
  | some q =>
    by_cases h : s.storage = i
    · simp [h]
    · simp [h]

theorem mutex_destroy (s : Storage) (r : UserIPRegistration) (i : Nat)
    (hs : s.lock < r._partitions.length) :
    (s.destroy r).mutex i =
      if i = s.lock then
        (if s.exclusive then (r.mutex s.lock).unlock else (r.mutex s.lock).unlock_shared)
      else r.mutex i := by
  unfold Storage.destroy
  exact mutex_modify r (fun m => if s.exclusive then m.unlock else m.unlock_shared) s.lock i hs

theorem countP_eraseIdx {α : Type} (p : α → Bool) :
    ∀ (l : List α) (pos : Nat) (a : α), l[pos]? = some a →
      l.countP p = (l.eraseIdx pos).countP p + (if p a then 1 else 0) := by
  intro l
  induction l with
  | nil => intro pos a h; simp at h
  | cons x xs ih =>
    intro pos a h
    cases pos with
    | zero =>
      simp only [List.getElem?_cons_zero, Option.some.injEq] at h
      subst h
      simp [List.countP_cons]
    | succ n =>
      simp only [List.getElem?_cons_succ] at h
      simp only [List.eraseIdx_cons_succ, List.countP_cons, ih n a h]
      omega

/-- Counting the handles is enough to tell that they are pairwise compatible. -/
theorem pairwise_compatible_of_counts :
    ∀ (l : List (Nat × Storage)),
      (∀ h ∈ l, h.2.lock = h.2.storage) →
      (∀ c, l.countP (fun h => decide (h.2.lock = c) && h.2.exclusive) ≤ 1 ∧
        (l.countP (fun h => decide (h.2.lock = c) && h.2.exclusive) = 1 →
          l.countP (fun h => decide (h.2.lock = c) && !h.2.exclusive) = 0)) →
      List.Pairwise Storage.Compatible l := by
  intro l
  induction l with
  | nil => intro _ _; exact List.Pairwise.nil
  | cons a rest ih =>
    intro hw hc
    rw [List.pairwise_cons]
    constructor
    · intro b hb hab
      have ha := hw a (List.mem_cons_self _ _)
      have hbl := hw b (List.mem_cons_of_mem _ hb)
      have hcc := hc a.2.lock
      simp only [List.countP_cons] at hcc
      have hbc : b.2.lock = a.2.lock := by rw [hbl, ha, hab]
      cases hae : a.2.exclusive with
      | true =>
        exfalso
        simp only [hae, decide_True, Bool.and_self, if_true, Bool.not_true, Bool.and_false,
          Bool.false_eq_true, if_false, Nat.add_zero] at hcc
        have h0 : rest.countP (fun h => decide (h.2.lock = a.2.lock) && h.2.exclusive) = 0 := by
          omega
        have h1 := hcc.2 (by omega)
        rw [List.countP_eq_zero] at h0 h1
        have hb0 := h0 b hb
        have hb1 := h1 b hb
        cases hbe : b.2.exclusive with
        | true => simp [hbc, hbe] at hb0
        | false => simp [hbc, hbe] at hb1
      | false =>
        refine ⟨rfl, ?_⟩
        cases hbe : b.2.exclusive with
        | false => rfl
        | true =>
          exfalso
          simp only [hae, decide_True, Bool.and_false, Bool.false_eq_true, if_false,
            Nat.add_zero, Bool.not_false, Bool.and_self, if_true] at hcc
          have hpos : 0 < rest.countP (fun h => decide (h.2.lock = a.2.lock) && h.2.exclusive) := by
            rw [List.countP_pos_iff]
            exact ⟨b, hb, by simp [hbc, hbe]⟩
          have := hcc.2 (by omega)
          omega
    · apply ih (fun h hh => hw h (List.mem_cons_of_mem _ hh))
      intro c
      have hcc := hc c
      simp only [List.countP_cons] at hcc
      constructor
      · omega
      · intro h1
        have := hcc.2 (by omega)
        omega

theorem World.Inv.pairwise {w : World} (h : w.Inv) : List.Pairwise Storage.Compatible w.held := by
  apply pairwise_compatible_of_counts w.held (fun x hx => (h.1 x hx).1)
  intro c
  obtain ⟨h2, h3, h4⟩ := h.2 c
  constructor
  · rw [← h3]; split <;> omega
  · intro h1
    rw [← h2]
    apply h4
    rw [← h3] at h1
    by_contra hf
    simp [hf] at h1

theorem World.inv_acquire (w : World) (idx thread : Nat) (s : Storage) (m : SharedMutex)
    (hi : w.Inv) (hidx : idx < w.registration._partitions.length)
    (hs : s.lock = idx ∧ s.storage = idx)
    (hr : m.readers = (w.registration.mutex idx).readers + (if s.exclusive then 0 else 1))
    (hw : (if m.writer then 1 else 0)
      = (if (w.registration.mutex idx).writer then 1 else 0) + (if s.exclusive then 1 else 0))
    (hx : m.writer = true → m.readers = 0) :
    World.Inv ⟨⟨w.registration._partitions.modify (fun p => (p.1, m)) idx⟩,
      w.held ++ [(thread, s)]⟩ := by
  constructor
  · intro h hh
    simp only [List.length_modify]
    rcases List.mem_append.1 hh with hh | hh
    · exact hi.1 h hh
    · rw [List.mem_singleton] at hh
      subst hh
      exact ⟨by rw [hs.1, hs.2], by rw [hs.2]; exact hidx⟩
  · intro i
    obtain ⟨h2, h3, h4⟩ := hi.2 i
    have hm := mutex_modify w.registration (fun _ => m) idx i hidx
    simp only at hm ⊢
    rw [hm]
    simp only [List.countP_append, List.countP_cons, List.countP_nil, Nat.zero_add]
    by_cases hii : i = idx
    · subst hii
      simp only [if_true, hs.1, decide_True, Bool.true_and]
      rw [← h2, ← h3]
      refine ⟨?_, ?_, hx⟩
      · rw [hr]; cases s.exclusive <;> simp
      · rw [hw]
    · have hne : ¬ s.lock = i := fun e => hii (by rw [← e, hs.1])
      simp only [hii, if_false, hne, decide_False, Bool.false_and, Bool.false_eq_true,
        Nat.add_zero]
      exact ⟨h2, h3, h4⟩

theorem World.step_inv (strHash : List Nat → Nat) (w w1 : World) (e : Event) (hi : w.Inv)
    (hs : w.step strHash e = Except.ok w1) : w1.Inv := by
  cases e with
  | getStorage thread key =>
    simp only [World.step] at hs
    rcases Nat.eq_zero_or_pos w.registration._partitions.length with h0 | hpos
    · rw [getStorage_empty strHash _ key h0] at hs; cases hs
    · have hlt : hashUser strHash key % w.registration._partitions.length
          < w.registration._partitions.length := Nat.mod_lt _ hpos
      rw [getStorage_eq strHash _ key hpos] at hs
      unfold SharedMutex.lock at hs
      by_cases hfree : (w.registration.mutex
          (hashUser strHash key % w.registration._partitions.length)).writer = false ∧
          (w.registration.mutex
            (hashUser strHash key % w.registration._partitions.length)).readers = 0
      · simp only [hfree, and_self, if_true] at hs
        injection hs with hs
        subst hs
        apply World.inv_acquire w _ thread _ _ hi hlt ⟨rfl, rfl⟩
        · simp [hfree.2]
        · simp [hfree.1]
        · intro _; rfl
      · simp only [hfree, if_false] at hs
        cases hs
  | getSharedStorage thread key =>
    simp only [World.step] at hs
    rcases Nat.eq_zero_or_pos w.registration._partitions.length with h0 | hpos
    · rw [getSharedStorage_empty strHash _ key h0] at hs; cases hs
    · have hlt : hashUser strHash key % w.registration._partitions.length
          < w.registration._partitions.length := Nat.mod_lt _ hpos
      rw [getSharedStorage_eq strHash _ key hpos] at hs
      unfold SharedMutex.lock_shared at hs
      by_cases hfree : (w.registration.mutex
          (hashUser strHash key % w.registration._partitions.length)).writer = false
      · simp only [hfree, if_true] at hs
        injection hs with hs
        subst hs
        apply World.inv_acquire w _ thread _ _ hi hlt ⟨rfl, rfl⟩
        · simp
        · simp [hfree]
        · intro h; cases h
      · simp only [hfree, if_false] at hs
        cases hs
  | insert pos value =>
    simp only [World.step] at hs
    cases hp : w.held[pos]? with
    | none =>
      rw [hp] at hs
      injection hs with hs
      subst hs
      exact hi
    | some ts =>
      rw [hp] at hs
      by_cases hx : ts.2.exclusive = true
      · simp only [hx, if_true] at hs
        injection hs with hs
        subst hs
        constructor
        · intro h hh
          have := hi.1 h hh
          simpa [Storage.assign] using this
        · intro i
          simp only [mutex_assign]
          exact hi.2 i
      · simp only [hx, if_false] at hs
        injection hs with hs
        subst hs
        exact hi
  | destroy pos =>
    simp only [World.step] at hs
    cases hp : w.held[pos]? with
    | none =>
      rw [hp] at hs
      injection hs with hs
      subst hs
      exact hi
    | some ts =>
      rw [hp] at hs
      injection hs with hs
      subst hs
      have hts := hi.1 ts (List.getElem?_mem hp)
      have hlock : ts.2.lock < w.registration._partitions.length := by
        rw [hts.1]; exact hts.2
      constructor
      · intro h hh
        have := hi.1 h (List.mem_of_mem_eraseIdx hh)
        simpa [Storage.destroy] using this
      · intro i
        obtain ⟨h2, h3, h4⟩ := hi.2 i
        have c1 := countP_eraseIdx (fun h : Nat × Storage =>
          decide (h.2.lock = i) && !h.2.exclusive) w.held pos ts hp
        have c2 := countP_eraseIdx (fun h : Nat × Storage =>
          decide (h.2.lock = i) && h.2.exclusive) w.held pos ts hp
        simp only at c1 c2 ⊢
        rw [mutex_destroy ts.2 w.registration i hlock]
        by_cases hii : i = ts.2.lock
        · subst hii
          simp only [if_true, decide_True, Bool.true_and] at c1 c2 ⊢
          cases hx : ts.2.exclusive with
          | true =>
            simp only [hx, Bool.not_true, Bool.false_eq_true, if_false, if_true,
              Nat.add_zero] at c1 c2 ⊢
            simp only [SharedMutex.unlock, Bool.false_eq_true, if_false]
            have hw : (w.registration.mutex ts.2.lock).writer = true := by
              by_contra hf
              simp only [hf, Bool.false_eq_true, if_false] at h3
              omega
            simp only [hw, if_true] at h3
            refine ⟨by omega, by omega, fun h => by cases h⟩
          | false =>
            simp only [hx, Bool.not_false, Bool.false_eq_true, if_false, if_true,
              Nat.add_zero] at c1 c2 ⊢
            simp only [SharedMutex.unlock_shared]
            refine ⟨by omega, by omega, ?_⟩
            intro hw
            have := h4 hw
            omega
        · have hne : ¬ ts.2.lock = i := fun e => hii e.symm
          simp only [hii, if_false, hne, decide_False, Bool.false_and, Bool.false_eq_true,
            Nat.add_zero] at c1 c2 ⊢
          exact ⟨by omega, by omega, h4⟩

theorem World.run_inv (strHash : List Nat → Nat) (events : List Event) :
    ∀ (w w1 : World), w.Inv → World.run strHash w events = Except.ok w1 → w1.Inv := by
  induction events with
  | nil =>
    intro w w1 hi hr
    simp only [World.run] at hr
    injection hr with hr
    subst hr
    exact hi
  | cons e rest ih =>
    intro w w1 hi hr
    simp only [World.run] at hr
    cases hs : w.step strHash e with
    | error f => rw [hs] at hr; cases hr
    | ok w2 =>
      rw [hs] at hr
      exact ih w2 w1 (World.step_inv strHash w w2 e hi hs) hr

theorem World.inv_initial (r : UserIPRegistration) (hq : r.Quiescent) : World.Inv ⟨r, []⟩ := by
  constructor
  · intro h hh; cases hh
  · intro i
    rw [mutex_of_quiescent r hq]
    simp [SharedMutex.free]

/-- Any list of threads can take a read-only handle on the partition of one key, one after
the other, as long as nobody holds that partition exclusively. -/
theorem World.run_shared (strHash : List Nat → Nat) (key : User) (threads : List Nat) :
    ∀ (w : World), 0 < w.registration._partitions.length →
      (w.registration.mutex
        (hashUser strHash key % w.registration._partitions.length)).writer = false →
      ∃ w1, World.run strHash w (threads.map (fun t => Event.getSharedStorage t key))
          = Except.ok w1 ∧
        w1.held = w.held ++ threads.map (fun t =>
          (t, (⟨hashUser strHash key % w.registration._partitions.length,
            hashUser strHash key % w.registration._partitions.length, false⟩ : Storage))) := by
  induction threads with
  | nil => intro w _ _; exact ⟨w, rfl, by simp⟩
  | cons t rest ih =>
    intro w hpos hfree
    have hlt : hashUser strHash key % w.registration._partitions.length
        < w.registration._partitions.length := Nat.mod_lt _ hpos
    simp only [List.map_cons, World.run, World.step]
    rw [getSharedStorage_eq strHash _ key hpos]
    simp only [SharedMutex.lock_shared, hfree, if_true]
    have hlen : (⟨w.registration._partitions.modify
        (fun p => (p.1, (⟨false, (w.registration.mutex (hashUser strHash key
          % w.registration._partitions.length)).readers + 1⟩ : SharedMutex)))
        (hashUser strHash key % w.registration._partitions.length)⟩ :
        UserIPRegistration)._partitions.length = w.registration._partitions.length := by
      simp
    obtain ⟨w1, hrun, hheld⟩ := ih
      ⟨⟨w.registration._partitions.modify
        (fun p => (p.1, (⟨false, (w.registration.mutex (hashUser strHash key
          % w.registration._partitions.length)).readers + 1⟩ : SharedMutex)))
        (hashUser strHash key % w.registration._partitions.length)⟩,
        w.held ++ [(t, ⟨hashUser strHash key % w.registration._partitions.length,
          hashUser strHash key % w.registration._partitions.length, false⟩)]⟩
      (by rw [hlen]; exact hpos)
      (by
        simp only [hlen]
        have hm := mutex_modify w.registration (fun _ => (⟨false, (w.registration.mutex
          (hashUser strHash key % w.registration._partitions.length)).readers + 1⟩ :
            SharedMutex)) (hashUser strHash key % w.registration._partitions.length)
          (hashUser strHash key % w.registration._partitions.length) hlt
        simp only [if_true] at hm
        rw [hm])
    refine ⟨w1, hrun, ?_⟩
    rw [hheld]
    simp only [hlen, List.append_assoc, List.singleton_append]

/-- C9 (mutual exclusion). Threads work on a registry constructed with `N ≥ 1` partitions
by taking handles with `getStorage` and `getSharedStorage`, inserting through them and
leaving their scopes, in any order in which the locks let them proceed. At every moment
each live handle holds the mutex of the partition it refers to, and two live handles on the
same partition are both `getSharedStorage` handles: no two `getStorage` handles, and no
`getStorage` handle next to a `getSharedStorage` handle. Any number of threads can hold
`getSharedStorage` handles on one partition together. -/
theorem mutual_exclusion (strHash : List Nat → Nat) (N : Nat) (r0 : UserIPRegistration)
    (events : List Event) (w : World) (hN : 1 ≤ N)
    (hc : UserIPRegistration.construct N = Except.ok r0)
    (hrun : World.run strHash ⟨r0, []⟩ events = Except.ok w) :
    List.Pairwise Storage.Compatible w.held ∧
    (∀ h ∈ w.held, h.2.lock = h.2.storage) ∧
    ∀ (threads : List Nat) (key : User), ∃ w1,
      World.run strHash ⟨r0, []⟩ (threads.map (fun t => Event.getSharedStorage t key))
        = Except.ok w1 ∧
      w1.held = threads.map (fun t =>
        (t, (⟨hashUser strHash key % N, hashUser strHash key % N, false⟩ : Storage))) := by
  obtain ⟨_, rfl⟩ := (construct_ok_iff N r0).1 hc
  have hinv := World.run_inv strHash events _ w
    (World.inv_initial _ (fresh_quiescent N)) hrun
  refine ⟨hinv.pairwise, fun h hh => (hinv.1 h hh).1, ?_⟩
  intro threads key
  have hlen := fresh_length N
  obtain ⟨w1, h1, h2⟩ := World.run_shared strHash key threads
    ⟨⟨List.replicate N freshPartition⟩, []⟩ (by rw [hlen]; omega)
    (by rw [mutex_of_quiescent _ (fresh_quiescent N)]; rfl)
  refine ⟨w1, h1, ?_⟩
  rw [h2]
  simp only [hlen, List.nil_append]

theorem mutual_exclusion_witness :
    1 ≤ 2 ∧
    UserIPRegistration.construct 2 = Except.ok ⟨[freshPartition, freshPartition]⟩ ∧
    World.run List.sum ⟨⟨[freshPartition, freshPartition]⟩, []⟩
        [Event.getStorage 1 ⟨[98], 1⟩, Event.getSharedStorage 2 ⟨[97], 2⟩,
          Event.insert 0 (⟨[98], 1⟩, ⟨10⟩), Event.getSharedStorage 3 ⟨[99], 3⟩,
          Event.destroy 0, Event.getSharedStorage 1 ⟨[98], 1⟩]
      = Except.ok ⟨⟨[([(⟨[98], 1⟩, ⟨10⟩)], ⟨false, 1⟩), (Map.empty, ⟨false, 2⟩)]⟩,
          [(2, ⟨1, 1, false⟩), (3, ⟨1, 1, false⟩), (1, ⟨0, 0, false⟩)]⟩ ∧
    World.run List.sum ⟨⟨[freshPartition, freshPartition]⟩, []⟩
        [Event.getStorage 1 ⟨[98], 1⟩, Event.getSharedStorage 2 ⟨[100], 2⟩]
      = Except.error Fault.wouldBlock ∧
    List.Pairwise Storage.Compatible
      [(2, (⟨1, 1, false⟩ : Storage)), (3, ⟨1, 1, false⟩), (1, ⟨0, 0, false⟩)] :=
  ⟨by decide, by decide, by decide, by decide,
    (mutual_exclusion List.sum 2 ⟨[freshPartition, freshPartition]⟩
      [Event.getStorage 1 ⟨[98], 1⟩, Event.getSharedStorage 2 ⟨[97], 2⟩,
        Event.insert 0 (⟨[98], 1⟩, ⟨10⟩), Event.getSharedStorage 3 ⟨[99], 3⟩,
        Event.destroy 0, Event.getSharedStorage 1 ⟨[98], 1⟩]
      ⟨⟨[([(⟨[98], 1⟩, ⟨10⟩)], ⟨false, 1⟩), (Map.empty, ⟨false, 2⟩)]⟩,
        [(2, ⟨1, 1, false⟩), (3, ⟨1, 1, false⟩), (1, ⟨0, 0, false⟩)]⟩
      (by decide) (by decide) (by decide)).1⟩

/-! ## Scoped release -/

theorem assign_length (s : Storage) (r : UserIPRegistration) (m : Map) :
    (s.assign r m)._partitions.length = r._partitions.length := by
  simp [Storage.assign]

/-- What a scope with a `getSharedStorage` handle leaves: the registry it started from,
whatever the body returned; inside the scope the lock has one more shared holder. -/
theorem withSharedStorage_locks {ε α : Type} (strHash : List Nat → Nat)
    (r r1 : UserIPRegistration) (key : User) (body : Map → Except ε α) (out : Except ε α)
    (hN : 0 < r._partitions.length)
    (h : r.withSharedStorage strHash key body = Except.ok (r1, out)) :
    (r.mutex (hashUser strHash key % r._partitions.length)).writer = false ∧
    (∃ s q, r.getSharedStorage strHash key = Except.ok (s, q) ∧
      q.mutex (hashUser strHash key % r._partitions.length)
        = ⟨false, (r.mutex (hashUser strHash key % r._partitions.length)).readers + 1⟩) ∧
    out = body (r.container (hashUser strHash key % r._partitions.length)) ∧
    r1 = r := by
  have hlt : hashUser strHash key % r._partitions.length < r._partitions.length :=
    Nat.mod_lt _ hN
  unfold UserIPRegistration.withSharedStorage at h
  rw [getSharedStorage_eq strHash r key hN] at h ⊢
  unfold SharedMutex.lock_shared at h ⊢
  by_cases hfree : (r.mutex (hashUser strHash key % r._partitions.length)).writer = false
  · simp only [hfree, if_true] at h ⊢
    injection h with h
    injection h with h1 h2
    have hm := mutex_modify r (fun _ => (⟨false,
      (r.mutex (hashUser strHash key % r._partitions.length)).readers + 1⟩ : SharedMutex))
      (hashUser strHash key % r._partitions.length)
    simp only at hm
    refine ⟨trivial, ⟨_, _, rfl, ?_⟩, ?_, ?_⟩
    · rw [hm _ hlt]; simp
    · rw [← h2]
      congr 1
      unfold Storage.arrow UserIPRegistration.container
      simp only [List.getElem?_modify_eq]
      cases r._partitions[hashUser strHash key % r._partitions.length]? <;> rfl
    · rw [← h1]
      unfold Storage.destroy
      simp only [Bool.false_eq_true, if_false, List.modify_modify_eq]
      have : List.modify ((fun p : Partition => (p.1, p.2.unlock_shared)) ∘
          fun p : Partition => (p.1, (⟨false,
            (r.mutex (hashUser strHash key % r._partitions.length)).readers + 1⟩ :
              SharedMutex)))
          (hashUser strHash key % r._partitions.length) r._partitions = r._partitions := by
        apply modify_fix
        intro a ha
        have hma : r.mutex (hashUser strHash key % r._partitions.length) = a.2 := by
          unfold UserIPRegistration.mutex
          rw [ha]
        rw [hma] at hfree ⊢
        simp only [Function.comp, SharedMutex.unlock_shared, Nat.add_sub_cancel]
        cases a with
        | mk c m =>
          cases m with
          | mk wr rd =>
            simp only at hfree
            rw [hfree]
      rw [this]
  · simp only [hfree, if_false] at h
    cases h

theorem User.eq_iff (a b : User) : User.eq a b = true ↔ a = b := by
  unfold User.eq
  cases a; cases b
  simp only [beq_iff_eq, Bool.and_eq_true, User.mk.injEq]
  tauto

theorem User.spaceship_eq_iff (a b : User) : User.spaceship a b = Ordering.eq ↔ a = b := by
  unfold User.spaceship intCompare
  constructor
  · intro h
    by_cases h1 : a.code < b.code
    · simp [h1] at h
    · by_cases h2 : b.code < a.code
      · simp [h1, h2] at h
      · simp only [h1, h2, if_false, ne_eq, not_true_eq_false] at h
        have hc : a.code = b.code := by omega
        have hu := (stringCompare_eq_iff _ _).1 h
        cases a; cases b; simp_all
  · intro h
    subst h
    simp [stringCompare_self]

/-- C11 (key consistency). For all users `a` and `b`: `a == b` holds exactly when the codes
and the usernames are the same; equal users have the same hash; and `a <=> b` is `equal`
exactly when `a == b`. -/
theorem key_consistency (strHash : List Nat → Nat) (a b : User) :
    (User.eq a b = true ↔ a.code = b.code ∧ a.username = b.username) ∧
    (User.eq a b = true → hashUser strHash a = hashUser strHash b) ∧
    (User.spaceship a b = Ordering.eq ↔ User.eq a b = true) := by
  refine ⟨?_, ?_, ?_⟩
  · rw [User.eq_iff]
    constructor
    · intro h; rw [h]; exact ⟨rfl, rfl⟩
    · intro h; cases a; cases b; simp_all
  · intro h
    rw [(User.eq_iff a b).1 h]
  · rw [User.spaceship_eq_iff, User.eq_iff]

theorem key_consistency_witness :
    User.eq ⟨[97, 98], 7⟩ ⟨[97, 98], 7⟩ = true ∧
    hashUser List.sum ⟨[97, 98], 7⟩ = hashUser List.sum ⟨[97, 98], 7⟩ ∧
    User.spaceship ⟨[97, 98], 7⟩ ⟨[97, 98], 7⟩ = Ordering.eq ∧
    User.eq ⟨[97, 98], 7⟩ ⟨[97, 98], 8⟩ = false ∧
    User.spaceship ⟨[97, 98], 7⟩ ⟨[97, 98], 8⟩ = Ordering.lt :=
  ⟨by decide,
    (key_consistency List.sum ⟨[97, 98], 7⟩ ⟨[97, 98], 7⟩).2.1 (by decide),
    (key_consistency List.sum ⟨[97, 98], 7⟩ ⟨[97, 98], 7⟩).2.2.2 (by decide),
    by decide, by decide⟩

theorem stringCompare_lt_iff (x y : List Nat) :
    stringCompare x y = Ordering.lt ↔ List.Lex (fun m n : Nat => m < n) x y := by
  induction x generalizing y with
  | nil =>
    cases y with
    | nil =>
      simp only [stringCompare]
      constructor
      · intro h; cases h
      · intro h; cases h
    | cons b bs =>
      simp only [stringCompare, true_iff]
      exact List.Lex.nil
  | cons a as ih =>
    cases y with
    | nil =>
      simp only [stringCompare]
      constructor
      · intro h; cases h
      · intro h; cases h
    | cons b bs =>
      simp only [stringCompare]
      by_cases h1 : a < b
      · simp only [h1, if_true, true_iff]
        exact List.Lex.rel h1
      · by_cases h2 : b < a
        · simp only [h1, h2, if_true, if_false]
          constructor
          · intro h; cases h
          · intro h
            cases h with
            | cons h => omega
            | rel h => exact absurd h h1
        · simp only [h1, h2, if_false]
          have hab : a = b := by omega
          subst hab
          rw [ih bs]
          constructor
          · intro h; exact List.Lex.cons h
          · intro h
            cases h with
            | cons h => exact h
            | rel h => exact absurd h h1

/-- C13 (the order of the keys). The comparison `a <=> b` decides by the codes when they
differ and by the usernames, compared lexicographically, when the codes are equal. The
induced `a < b` is irreflexive and transitive, and of `a < b`, `a == b`, `b < a` exactly one
holds. -/
theorem user_total_order (a b c : User) :
    (a.code < b.code → User.spaceship a b = Ordering.lt) ∧
    (b.code < a.code → User.spaceship a b = Ordering.gt) ∧
    (a.code = b.code → User.spaceship a b = stringCompare a.username b.username) ∧
    (stringCompare a.username b.username = Ordering.lt ↔
      List.Lex (fun m n : Nat => m < n) a.username b.username) ∧
    User.less a a = false ∧
    (User.less a b = true → User.less b c = true → User.less a c = true) ∧
    ((User.less a b = true ∧ User.eq a b = false ∧ User.less b a = false) ∨
      (User.less a b = false ∧ User.eq a b = true ∧ User.less b a = false) ∨
      (User.less a b = false ∧ User.eq a b = false ∧ User.less b a = true)) := by
  refine ⟨?_, ?_, ?_, stringCompare_lt_iff _ _, User.less_irrefl a, User.less_trans a b c, ?_⟩
  · intro h
    simp [User.spaceship, intCompare, h]
  · intro h
    have h1 : ¬ a.code < b.code := by omega
    simp [User.spaceship, intCompare, h, h1]
  · intro h
    simp [User.spaceship, intCompare, h]
  · have hne : ∀ x y : User, User.less x y = true → User.eq x y = false := by
      intro x y hxy
      cases he : User.eq x y with
      | false => rfl
      | true =>
        rw [(User.eq_iff x y).1 he, User.less_irrefl] at hxy
        cases hxy
    cases hab : User.less a b with
    | true =>
      exact Or.inl ⟨rfl, hne a b hab, User.less_asymm a b hab⟩
    | false =>
      cases hba : User.less b a with
      | true =>
        refine Or.inr (Or.inr ⟨rfl, ?_, rfl⟩)
        cases he : User.eq a b with
        | false => rfl
        | true =>
          rw [(User.eq_iff a b).1 he, User.less_irrefl] at hba
          cases hba
      | false =>
        exact Or.inr (Or.inl ⟨rfl, (User.eq_iff a b).2 (User.eq_of_not_less a b hab hba), rfl⟩)

theorem user_total_order_witness :
    User.less ⟨[122], 1⟩ ⟨[97], 2⟩ = true ∧ User.less ⟨[97], 2⟩ ⟨[97, 97], 2⟩ = true ∧
    User.less ⟨[122], 1⟩ ⟨[97, 97], 2⟩ = true :=
  ⟨by decide, by decide,
    (user_total_order ⟨[122], 1⟩ ⟨[97], 2⟩ ⟨[97, 97], 2⟩).2.2.2.2.2.1 (by decide) (by decide)⟩

/-! ## The partition count -/

theorem destroy_length (s : Storage) (r : UserIPRegistration) :
    (s.destroy r)._partitions.length = r._partitions.length := by
  simp [Storage.destroy]

theorem getStorage_length (strHash : List Nat → Nat) (r q : UserIPRegistration) (key : User)
    (s : Storage) (h : r.getStorage strHash key = Except.ok (s, q)) :
    q._partitions.length = r._partitions.length := by
  rcases Nat.eq_zero_or_pos r._partitions.length with h0 | hpos
  · rw [getStorage_empty strHash r key h0] at h; cases h
  · rw [getStorage_eq strHash r key hpos] at h
    cases hl : (r.mutex (hashUser strHash key % r._partitions.length)).lock with
    | none => rw [hl] at h; cases h
    | some held =>
      rw [hl] at h
      injection h with h
      injection h with _ h
      rw [← h]
      simp

theorem getSharedStorage_length (strHash : List Nat → Nat) (r q : UserIPRegistration)
    (key : User) (s : Storage) (h : r.getSharedStorage strHash key = Except.ok (s, q)) :
    q._partitions.length = r._partitions.length := by
  rcases Nat.eq_zero_or_pos r._partitions.length with h0 | hpos
  · rw [getSharedStorage_empty strHash r key h0] at h; cases h
  · rw [getSharedStorage_eq strHash r key hpos] at h
    cases hl : (r.mutex (hashUser strHash key % r._partitions.length)).lock_shared with
    | none => rw [hl] at h; cases h
    | some held =>
      rw [hl] at h
      injection h with h
      injection h with _ h
      rw [← h]
      simp

theorem World.step_length (strHash : List Nat → Nat) (w w1 : World) (e : Event)
    (hs : w.step strHash e = Except.ok w1) :
    w1.registration._partitions.length = w.registration._partitions.length := by
  cases e with
  | getStorage thread key =>
    simp only [World.step] at hs
    cases hg : w.registration.getStorage strHash key with
    | error f => rw [hg] at hs; cases hs
    | ok res =>
      rw [hg] at hs
      injection hs with hs
      subst hs
      exact getStorage_length strHash _ _ key res.1 hg
  | getSharedStorage thread key =>
    simp only [World.step] at hs
    cases hg : w.registration.getSharedStorage strHash key with
    | error f => rw [hg] at hs; cases hs
    | ok res =>
      rw [hg] at hs
      injection hs with hs
      subst hs
      exact getSharedStorage_length strHash _ _ key res.1 hg
  | insert pos value =>
    simp only [World.step] at hs
    cases hp : w.held[pos]? with
    | none =>
      rw [hp] at hs
      injection hs with hs
      subst hs
      rfl
    | some ts =>
      rw [hp] at hs
      by_cases hx : ts.2.exclusive = true
      · simp only [hx, if_true] at hs
        injection hs with hs
        subst hs
        exact assign_length _ _ _
      · simp only [hx, if_false] at hs
        injection hs with hs
        subst hs
        rfl
  | destroy pos =>
    simp only [World.step] at hs
    cases hp : w.held[pos]? with
    | none =>
      rw [hp] at hs
      injection hs with hs
      subst hs
      rfl
    | some ts =>
      rw [hp] at hs
      injection hs with hs
      subst hs
      exact destroy_length _ _

theorem World.run_length (strHash : List Nat → Nat) (events : List Event) :
    ∀ (w w1 : World), World.run strHash w events = Except.ok w1 →
      w1.registration._partitions.length = w.registration._partitions.length := by
  induction events with
  | nil =>
    intro w w1 hr
    simp only [World.run] at hr
    injection hr with hr
    subst hr
    rfl
  | cons e rest ih =>
    intro w w1 hr
    simp only [World.run] at hr
    cases hs : w.step strHash e with
    | error f => rw [hs] at hr; cases hr
    | ok w2 =>
      rw [hs] at hr
      rw [ih w2 w1 hr, World.step_length strHash w w2 e hs]

/-- With partitions, a count that fits an `int`, and no handle outstanding, every sequence
of operations runs to its end, on a registry with the same partitions count and again no
handle outstanding. -/
theorem performAll_ok (strHash : List Nat → Nat) (ops : List Operation) :
    ∀ (r : UserIPRegistration), 0 < r._partitions.length →
      (r._partitions.length : Int) ≤ INT_MAX → r.Quiescent →
      ∃ r1, performAll strHash r ops = Except.ok r1 ∧
        r1._partitions.length = r._partitions.length ∧ r1.Quiescent := by
  induction ops with
  | nil => intro r _ _ hq; exact ⟨r, rfl, rfl, hq⟩
  | cons op rest ih =>
    intro r hpos hmax hq
    cases op with
    | insert userIP =>
      simp only [performAll, perform, login_eq_inserted strHash r userIP hpos hq]
      have hl := inserted_length strHash r userIP
      obtain ⟨r1, h1, h2, h3⟩ := ih (r.inserted strHash userIP) (by rw [hl]; exact hpos)
        (by rw [hl]; exact hmax) (inserted_quiescent strHash r userIP hq)
      exact ⟨r1, h1, by rw [h2, hl], h3⟩
    | lookup key =>
      simp only [performAll, perform, lookup_eq strHash r key hpos hq]
      exact ih r hpos hmax hq
    | size =>
      simp only [performAll, perform, size_eq_sum r hmax]
      exact ih r hpos hmax hq

/-- C12 (fixed partition count). A registry constructed with `N ≥ 1` partitions has `N`
partitions; every sequence of login blocks, lookups through `getSharedStorage` and calls of
`size()` runs to its end and leaves `N` partitions; and so does every run of handle events
by threads (taking handles, inserting through them, leaving their scopes). -/
theorem fixed_partition_count (strHash : List Nat → Nat) (N : Nat) (r0 : UserIPRegistration)
    (ops : List Operation) (events : List Event) (w : World) (hN : 1 ≤ N)
    (hc : UserIPRegistration.construct N = Except.ok r0)
    (hrun : World.run strHash ⟨r0, []⟩ events = Except.ok w) :
    r0._partitions.length = N ∧
    (∃ r, performAll strHash r0 ops = Except.ok r ∧ r._partitions.length = N) ∧
    w.registration._partitions.length = N := by
  obtain ⟨hmax, rfl⟩ := (construct_ok_iff N r0).1 hc
  have hlen := fresh_length N
  refine ⟨hlen, ?_, ?_⟩
  · obtain ⟨r1, h1, h2, _⟩ := performAll_ok strHash ops ⟨List.replicate N freshPartition⟩
      (by rw [hlen]; omega) (by rw [hlen]; exact hmax) (fresh_quiescent N)
    exact ⟨r1, h1, by rw [h2, hlen]⟩
  · rw [World.run_length strHash events _ w hrun]
    exact hlen

theorem fixed_partition_count_witness :
    1 ≤ 2 ∧
    UserIPRegistration.construct 2 = Except.ok ⟨[freshPartition, freshPartition]⟩ ∧
    World.run List.sum ⟨⟨[freshPartition, freshPartition]⟩, []⟩
        [Event.getStorage 1 ⟨[98], 1⟩, Event.insert 0 (⟨[98], 1⟩, ⟨10⟩),
          Event.getSharedStorage 2 ⟨[97], 2⟩]
      = Except.ok ⟨⟨[([(⟨[98], 1⟩, ⟨10⟩)], ⟨true, 0⟩), (Map.empty, ⟨false, 1⟩)]⟩,
          [(1, ⟨0, 0, true⟩), (2, ⟨1, 1, false⟩)]⟩ ∧
    (∃ r, performAll List.sum ⟨[freshPartition, freshPartition]⟩
        [Operation.insert (⟨[98], 1⟩, ⟨10⟩), Operation.size, Operation.lookup ⟨[98], 1⟩,
          Operation.insert (⟨[97], 1⟩, ⟨20⟩), Operation.size] = Except.ok r ∧
      r._partitions.length = 2) :=
  ⟨by decide, by decide, by decide,
    (fixed_partition_count List.sum 2 ⟨[freshPartition, freshPartition]⟩
      [Operation.insert (⟨[98], 1⟩, ⟨10⟩), Operation.size, Operation.lookup ⟨[98], 1⟩,
        Operation.insert (⟨[97], 1⟩, ⟨20⟩), Operation.size]
      [Event.getStorage 1 ⟨[98], 1⟩, Event.insert 0 (⟨[98], 1⟩, ⟨10⟩),
        Event.getSharedStorage 2 ⟨[97], 2⟩]
      ⟨⟨[([(⟨[98], 1⟩, ⟨10⟩)], ⟨true, 0⟩), (Map.empty, ⟨false, 1⟩)]⟩,
        [(1, ⟨0, 0, true⟩), (2, ⟨1, 1, false⟩)]⟩
      (by decide) (by decide) (by decide)).2.1⟩

/-! ## The frame of an insert -/

theorem Map.filter_insert (m : Map) (k : User) (v : IPAddress) :
    (Map.insert m (k, v)).filter (fun e => decide (e.1 ≠ k))
      = m.filter (fun e => decide (e.1 ≠ k)) := by
  induction m with
  | nil => simp [Map.insert]
  | cons e rest ih =>
    simp only [Map.insert]
    by_cases h1 : User.less k e.1 = true
    · simp only [h1, if_true]
      rw [List.filter_cons]
      simp
    · by_cases h2 : User.less e.1 k = true
      · simp only [h1, h2, if_true, if_false, Bool.false_eq_true]
        rw [List.filter_cons, List.filter_cons, ih]
      · simp only [h1, h2, if_false, Bool.false_eq_true]

theorem container_of_length_le (r : UserIPRegistration) (i : Nat)
    (h : r._partitions.length ≤ i) : r.container i = Map.empty := by
  unfold UserIPRegistration.container
  rw [List.getElem?_eq_none h]

/-! ## Inserting a stored key again -/

theorem Map.insert_of_find (m : Map) (k : User) (v1 v2 : IPAddress)
    (h : Map.find m k = some v1) : Map.insert m (k, v2) = m := by
  induction m with
  | nil => simp [Map.find] at h
  | cons e rest ih =>
    simp only [Map.find] at h
    simp only [Map.insert]
    by_cases h1 : User.less k e.1 = true
    · simp [h1] at h
    · by_cases h2 : User.less e.1 k = true
      · simp only [h1, h2, if_true, if_false, Bool.false_eq_true] at h ⊢
        rw [ih h]
      · simp only [h1, h2, if_false, Bool.false_eq_true]

theorem inserted_of_find (strHash : List Nat → Nat) (r : UserIPRegistration) (k : User)
    (v1 v2 : IPAddress)
    (h : (r.container (hashUser strHash k % r._partitions.length)).find k = some v1) :
    r.inserted strHash (k, v2) = r := by
  unfold UserIPRegistration.inserted
  congr 1
  apply modify_fix
  intro a ha
  have hc : r.container (hashUser strHash k % r._partitions.length) = a.1 := by
    unfold UserIPRegistration.container
    simp only at ha
    rw [ha]
  rw [hc] at h
  show (a.1.insert (k, v2), a.2) = a
  rw [Map.insert_of_find a.1 k v1 v2 h]

/-- After a sequence of inserts, `find` returns for `k` what it returned before, or else
the value of the first pair with the key `k` in the sequence. -/
theorem foldl_inserted_find_first (strHash : List Nat → Nat) (k : User)
    (kvs : List (User × IPAddress)) :
    ∀ (r : UserIPRegistration), 0 < r._partitions.length →
      ((kvs.foldl (fun s kv => s.inserted strHash kv) r).container
          (hashUser strHash k % r._partitions.length)).find k
        = match (r.container (hashUser strHash k % r._partitions.length)).find k with
          | some v => some v
          | none => (kvs.find? (fun kv => decide (kv.1 = k))).map Prod.snd := by
  induction kvs with
  | nil =>
    intro r _
    simp only [List.foldl_nil, List.find?_nil, Option.map_none']
    cases (r.container (hashUser strHash k % r._partitions.length)).find k <;> rfl
  | cons kv rest ih =>
    intro r hN
    rw [List.foldl_cons]
    have h1 := ih (r.inserted strHash kv) (by rw [inserted_length]; exact hN)
    rw [inserted_length] at h1
    rw [h1, inserted_find strHash r kv k hN]
    by_cases hk : k = kv.1
    · have hk1 : kv.1 = k := hk.symm
      simp only [hk, if_true, List.find?_cons, decide_True, Option.map_some']
      cases (r.container (hashUser strHash kv.1 % r._partitions.length)).find kv.1 <;> rfl
    · have hk1 : ¬ kv.1 = k := fun e => hk e.symm
      simp only [hk, if_false, List.find?_cons, hk1, decide_False]

/-- C15 (first insert wins). A registry was constructed and filled by login blocks, and
`(k, v1)` is the first pair with the key `k` among them. Then a lookup of `k` finds `v1`;
a further login block for `(k, v2)` runs and leaves the registry exactly as it is, so the
value stays `v1` and `size()` returns what it returned; and for every pair, the login block
done twice leaves what the login block done once leaves. -/
theorem first_insert_wins (strHash : List Nat → Nat) (N : Nat) (r0 r : UserIPRegistration)
    (kvs : List (User × IPAddress)) (k : User) (v1 v2 : IPAddress)
    (hc : UserIPRegistration.construct N = Except.ok r0)
    (hr : logins strHash r0 kvs = Except.ok r)
    (hfirst : kvs.find? (fun kv => decide (kv.1 = k)) = some (k, v1)) :
    lookup strHash r k = Except.ok (some v1, r) ∧
    login strHash r (k, v2) = Except.ok r ∧
    (∀ r2, login strHash r (k, v2) = Except.ok r2 →
      r2.size = r.size ∧ lookup strHash r2 k = Except.ok (some v1, r2)) ∧
    ∀ kv, ∃ r1, login strHash r kv = Except.ok r1 ∧ login strHash r1 kv = Except.ok r1 := by
  obtain ⟨hmax, rfl⟩ := (construct_ok_iff N r0).1 hc
  have hlen := fresh_length N
  rcases Nat.eq_zero_or_pos N with h0 | hposN
  · obtain ⟨rfl, _⟩ := logins_empty strHash _ r kvs (by rw [hlen]; exact h0) hr
    simp at hfirst
  · have hpos0 : 0 < (⟨List.replicate N freshPartition⟩ :
        UserIPRegistration)._partitions.length := by rw [hlen]; exact hposN
    have he := logins_eq strHash kvs _ hpos0 (fresh_quiescent N)
    rw [he] at hr
    injection hr with hr
    subst hr
    have hl := foldl_inserted_length strHash kvs ⟨List.replicate N freshPartition⟩
    have hq := foldl_inserted_quiescent strHash kvs _ (fresh_quiescent N)
    have hpos : 0 < (kvs.foldl (fun s kv => s.inserted strHash kv)
        (⟨List.replicate N freshPartition⟩ : UserIPRegistration))._partitions.length := by
      rw [hl]; exact hpos0
    have hfind := foldl_inserted_find_first strHash k kvs ⟨List.replicate N freshPartition⟩
      hpos0
    rw [fresh_container, hfirst] at hfind
    simp only [Map.empty, Map.find, Option.map_some'] at hfind
    rw [← hl] at hfind
    have hlook := lookup_eq strHash _ k hpos hq
    rw [hfind] at hlook
    have hsame := inserted_of_find strHash _ k v1 v2 hfind
    have hlogin := login_eq_inserted strHash _ (k, v2) hpos hq
    rw [hsame] at hlogin
    refine ⟨hlook, hlogin, ?_, ?_⟩
    · intro r2 h2
      rw [hlogin] at h2
      injection h2 with h2
      subst h2
      exact ⟨rfl, hlook⟩
    · intro kv
      refine ⟨_, login_eq_inserted strHash _ kv hpos hq, ?_⟩
      have hl1 := inserted_length strHash
        (kvs.foldl (fun s kv => s.inserted strHash kv)
          (⟨List.replicate N freshPartition⟩ : UserIPRegistration)) kv
      rw [login_eq_inserted strHash _ kv (by rw [hl1]; exact hpos)
        (inserted_quiescent strHash _ kv hq)]
      have hf := inserted_find strHash
        (kvs.foldl (fun s kv => s.inserted strHash kv)
          (⟨List.replicate N freshPartition⟩ : UserIPRegistration)) kv kv.1 hpos
      simp only [if_true] at hf
      rw [← hl1] at hf
      have := inserted_of_find strHash _ kv.1 _ kv.2 hf
      rw [Prod.mk.eta] at this
      rw [this]

theorem first_insert_wins_witness :
    UserIPRegistration.construct 2 = Except.ok ⟨[freshPartition, freshPartition]⟩ ∧
    logins List.sum ⟨[freshPartition, freshPartition]⟩
        [(⟨[97], 1⟩, ⟨10⟩), (⟨[98], 2⟩, ⟨20⟩), (⟨[97], 1⟩, ⟨30⟩)]
      = Except.ok ⟨[([(⟨[98], 2⟩, ⟨20⟩)], SharedMutex.free),
          ([(⟨[97], 1⟩, ⟨10⟩)], SharedMutex.free)]⟩ ∧
    lookup List.sum ⟨[([(⟨[98], 2⟩, ⟨20⟩)], SharedMutex.free),
          ([(⟨[97], 1⟩, ⟨10⟩)], SharedMutex.free)]⟩ ⟨[97], 1⟩
      = Except.ok (some ⟨10⟩, ⟨[([(⟨[98], 2⟩, ⟨20⟩)], SharedMutex.free),
          ([(⟨[97], 1⟩, ⟨10⟩)], SharedMutex.free)]⟩) ∧
    login List.sum ⟨[([(⟨[98], 2⟩, ⟨20⟩)], SharedMutex.free),
          ([(⟨[97], 1⟩, ⟨10⟩)], SharedMutex.free)]⟩ (⟨[97], 1⟩, ⟨40⟩)
      = Except.ok ⟨[([(⟨[98], 2⟩, ⟨20⟩)], SharedMutex.free),
          ([(⟨[97], 1⟩, ⟨10⟩)], SharedMutex.free)]⟩ := by
  have h := first_insert_wins List.sum 2 ⟨[freshPartition, freshPartition]⟩
    ⟨[([(⟨[98], 2⟩, ⟨20⟩)], SharedMutex.free), ([(⟨[97], 1⟩, ⟨10⟩)], SharedMutex.free)]⟩
    [(⟨[97], 1⟩, ⟨10⟩), (⟨[98], 2⟩, ⟨20⟩), (⟨[97], 1⟩, ⟨30⟩)] ⟨[97], 1⟩ ⟨10⟩ ⟨40⟩
    (by decide) (by decide) (by decide)
  exact ⟨by decide, by decide, h.1, h.2.1⟩

/-! ## Users with the same username -/

theorem hashUser_of_username (strHash : List Nat → Nat) (a b : User)
    (hu : a.username = b.username) : hashUser strHash a = hashUser strHash b := by
  unfold hashUser
  rw [hu]

/-! ## The generator -/

theorem testBit_of_lt_two_pow_64 (x j : Nat) (hx : x < 2 ^ 64) (hj : 64 ≤ j) :
    x.testBit j = false := by
  apply Nat.testBit_lt_two_pow
  exact Nat.lt_of_lt_of_le hx (Nat.pow_le_pow_right (by decide) hj)

/-- The bits of `rotl x k`: bit `i` is bit `i - k` of `x`, counted modulo 64. -/
theorem testBit_rotl (x k i : Nat) (hx : x < 2 ^ 64) (hk0 : 0 < k) (hk : k < 64) :
    (rotl x k).testBit i = (decide (i < 64) && x.testBit ((i + 64 - k) % 64)) := by
  unfold rotl
  rw [Nat.testBit_or, Nat.testBit_mod_two_pow, Nat.testBit_shiftLeft, Nat.testBit_shiftRight]
  by_cases hi : i < 64
  · by_cases hki : k ≤ i
    · have e1 : (i + 64 - k) % 64 = i - k := by omega
      have e2 : x.testBit (64 - k + i) = false :=
        testBit_of_lt_two_pow_64 x _ hx (by omega)
      simp [hi, hki, e1, e2]
    · have e1 : (i + 64 - k) % 64 = 64 - k + i := by omega
      have hki2 : ¬ i ≥ k := by omega
      simp [hi, hki2, e1]
  · have e2 : x.testBit (64 - k + i) = false :=
      testBit_of_lt_two_pow_64 x _ hx (by omega)
    simp [hi, e2]

theorem rotl_lt (x k : Nat) (hx : x < 2 ^ 64) : rotl x k < 2 ^ 64 := by
  unfold rotl
  apply Nat.or_lt_two_pow
  · exact Nat.mod_lt _ (by decide)
  · apply Nat.lt_of_le_of_lt _ hx
    rw [Nat.shiftRight_eq_div_pow]
    exact Nat.div_le_self _ _

theorem random_valid (s : RandomState) (h : s.Valid) :
    (random s).1 < 2 ^ 64 ∧ (random s).2.Valid := by
  obtain ⟨h0, h1, h2, h3⟩ := h
  refine ⟨Nat.mod_lt _ (by decide), ?_, ?_, ?_, ?_⟩
  · exact Nat.xor_lt_two_pow h0 (Nat.xor_lt_two_pow h3 h1)
  · exact Nat.xor_lt_two_pow h1 (Nat.xor_lt_two_pow h2 h0)
  · exact Nat.xor_lt_two_pow (Nat.xor_lt_two_pow h2 h0) (Nat.mod_lt _ (by decide))
  · exact rotl_lt _ _ (Nat.xor_lt_two_pow h3 h1)

/-- The state `random` leaves, word by word. -/
theorem random_snd (s : RandomState) :
    (random s).2 = ⟨s.s0 ^^^ s.s1 ^^^ s.s3, s.s0 ^^^ s.s1 ^^^ s.s2,
      s.s0 ^^^ s.s2 ^^^ ((s.s1 <<< 17) % 2 ^ 64), rotl (s.s1 ^^^ s.s3) 45⟩ := by
  show (⟨s.s0 ^^^ (s.s3 ^^^ s.s1), s.s1 ^^^ (s.s2 ^^^ s.s0),
      s.s2 ^^^ s.s0 ^^^ ((s.s1 <<< 17) % 2 ^ 64), rotl (s.s3 ^^^ s.s1) 45⟩ : RandomState) = _
  have e0 : s.s0 ^^^ (s.s3 ^^^ s.s1) = s.s0 ^^^ s.s1 ^^^ s.s3 := by
    rw [Nat.xor_comm s.s3 s.s1, Nat.xor_assoc]
  have e1 : s.s1 ^^^ (s.s2 ^^^ s.s0) = s.s0 ^^^ s.s1 ^^^ s.s2 := by
    rw [Nat.xor_comm s.s2 s.s0, ← Nat.xor_assoc, Nat.xor_comm s.s1 s.s0]
  have e2 : s.s2 ^^^ s.s0 = s.s0 ^^^ s.s2 := Nat.xor_comm _ _
  have e3 : s.s3 ^^^ s.s1 = s.s1 ^^^ s.s3 := Nat.xor_comm _ _
  rw [e0, e1, e2, e3]

/-- C17 (one step of xoshiro256++). For every state `(s0, s1, s2, s3)` the function `random`
returns `(rotl(s0 + s3, 23) + s0) mod 2 ^ 64`, the sum inside taken modulo `2 ^ 64` as well,
and leaves the state `(s0 ^ s1 ^ s3, s0 ^ s1 ^ s2, s0 ^ s2 ^ (s1 << 17 mod 2 ^ 64),
rotl(s1 ^ s3, 45))`. For `0 < k < 64` and a 64-bit `x`, `rotl x k` is the left rotation by
`k` bits: it has no bit from 64 on, and its bit `i` is bit `(i - k) mod 64` of `x`. A state
of 64-bit words gives a 64-bit result and a state of 64-bit words. -/
theorem random_xoshiro (s : RandomState) :
    (random s).1 = (rotl ((s.s0 + s.s3) % 2 ^ 64) 23 + s.s0) % 2 ^ 64 ∧
    (random s).2 = ⟨s.s0 ^^^ s.s1 ^^^ s.s3, s.s0 ^^^ s.s1 ^^^ s.s2,
      s.s0 ^^^ s.s2 ^^^ ((s.s1 <<< 17) % 2 ^ 64), rotl (s.s1 ^^^ s.s3) 45⟩ ∧
    (∀ x k i, x < 2 ^ 64 → 0 < k → k < 64 →
      (rotl x k).testBit i = (decide (i < 64) && x.testBit ((i + 64 - k) % 64))) ∧
    (s.Valid → (random s).1 < 2 ^ 64 ∧ (random s).2.Valid) := by
  exact ⟨rfl, random_snd s, fun x k i hx h0 hk => testBit_rotl x k i hx h0 hk,
    random_valid s⟩

theorem random_xoshiro_witness :
    (⟨1, 2, 3, 4⟩ : RandomState).Valid ∧
    random ⟨1, 2, 3, 4⟩ = (41943041, ⟨7, 0, 262146, 211106232532992⟩) ∧
    (random ⟨1, 2, 3, 4⟩).1 < 2 ^ 64 ∧ (random ⟨1, 2, 3, 4⟩).2.Valid ∧
    rotl (2 ^ 63 + 1) 1 = 3 ∧
    (rotl (2 ^ 63 + 1) 1).testBit 0 = (decide (0 < 64) && (2 ^ 63 + 1).testBit ((0 + 64 - 1) % 64)) :=
  ⟨by decide, by decide,
    ((random_xoshiro ⟨1, 2, 3, 4⟩).2.2.2 (by decide)).1,
    ((random_xoshiro ⟨1, 2, 3, 4⟩).2.2.2 (by decide)).2,
    by decide,
    (random_xoshiro ⟨1, 2, 3, 4⟩).2.2.1 (2 ^ 63 + 1) 1 0 (by decide) (by decide) (by decide)⟩

/-! ## The fake users -/

theorem nameLoop_spec (n : Nat) :
    ∀ (state : RandomState) (username : List Nat),
      (createFakeUser.nameLoop n state username).1.length = username.length + n ∧
      ∀ c ∈ (createFakeUser.nameLoop n state username).1,
        c ∈ username ∨ (97 ≤ c ∧ c ≤ 122) := by
  induction n with
  | zero =>
    intro state username
    exact ⟨rfl, fun c hc => Or.inl hc⟩
  | succ n ih =>
    intro state username
    rw [createFakeUser.nameLoop]
    obtain ⟨h1, h2⟩ := ih (random state).2 (username ++ [(random state).1 % 26 + 97])
    constructor
    · rw [h1, List.length_append, List.length_singleton]
      omega
    · intro c hc
      rcases h2 c hc with h | h
      · rcases List.mem_append.1 h with h | h
        · exact Or.inl h
        · rw [List.mem_singleton] at h
          right
          have := Nat.mod_lt (random state).1 (show 0 < 26 by decide)
          omega
      · exact Or.inr h

/-- C18 (the fake users are well-formed). For every index `i`, `createFakeUser(i)` has a
username of 5 to 13 characters, each a lowercase letter (`'a'` is 97, `'z'` is 122), a code
from 0 to 9999 and an address below `2 ^ 32`. It is a function of `i`: the array `state` is
local to the call, so the same index gives the same pair. -/
theorem createFakeUser_wellFormed (i : Nat) :
    5 ≤ (createFakeUser i).1.username.length ∧
    (createFakeUser i).1.username.length ≤ 13 ∧
    (∀ c ∈ (createFakeUser i).1.username, 97 ≤ c ∧ c ≤ 122) ∧
    0 ≤ (createFakeUser i).1.code ∧ (createFakeUser i).1.code ≤ 9999 ∧
    (createFakeUser i).2.address < 2 ^ 32 ∧
    ∀ j, j = i → createFakeUser j = createFakeUser i := by
  have hspec := nameLoop_spec ((random ⟨i, 0, 0, 0⟩).1 % 9 + 5) (random ⟨i, 0, 0, 0⟩).2 []
  have hlen : (createFakeUser i).1.username.length = (random ⟨i, 0, 0, 0⟩).1 % 9 + 5 := by
    show (createFakeUser.nameLoop _ _ _).1.length = _
    rw [hspec.1]
    simp
  have hmod := Nat.mod_lt (random ⟨i, 0, 0, 0⟩).1 (show 0 < 9 by decide)
  refine ⟨by omega, by omega, ?_, ?_, ?_, ?_, fun j hj => by rw [hj]⟩
  · intro c hc
    rcases hspec.2 c hc with h | h
    · cases h
    · exact h
  · show (0 : Int) ≤ ((_ % 10000 : Nat) : Int)
    exact Int.natCast_nonneg _
  · show ((_ % 10000 : Nat) : Int) ≤ 9999
    omega
  · show _ &&& 0xFFFFFFFF < 2 ^ 32
    exact Nat.and_lt_two_pow _ (by decide)

theorem createFakeUser_wellFormed_witness :
    createFakeUser 1
      = (⟨[118, 113, 118, 121, 105, 120, 108, 97, 115, 104, 101], 1302⟩, ⟨3051044174⟩) ∧
    createFakeUser 0 = (⟨[97, 97, 97, 97, 97], 0⟩, ⟨0⟩) ∧
    (∀ c ∈ (createFakeUser 1).1.username, 97 ≤ c ∧ c ≤ 122) ∧
    createFakeUser (0 + 1) = createFakeUser 1 :=
  ⟨by decide, by decide, (createFakeUser_wellFormed 1).2.2.1,
    (createFakeUser_wellFormed 1).2.2.2.2.2.2 (0 + 1) (by decide)⟩

/-! ## The state update is one-to-one -/

theorem rotl_injective (x y k : Nat) (hx : x < 2 ^ 64) (hy : y < 2 ^ 64) (hk0 : 0 < k)
    (hk : k < 64) (h : rotl x k = rotl y k) : x = y := by
  apply Nat.eq_of_testBit_eq
  intro j
  by_cases hj : j < 64
  · have hb := congrArg (fun z => z.testBit ((j + k) % 64)) h
    simp only at hb
    rw [testBit_rotl x k _ hx hk0 hk, testBit_rotl y k _ hy hk0 hk] at hb
    have hlt : (j + k) % 64 < 64 := Nat.mod_lt _ (by decide)
    have he : ((j + k) % 64 + 64 - k) % 64 = j := by omega
    simpa [hlt, he] using hb
  · rw [testBit_of_lt_two_pow_64 x j hx (by omega), testBit_of_lt_two_pow_64 y j hy (by omega)]

/-- The map `x ↦ x ^ (x << 17)` on 64-bit words is one-to-one. -/
theorem xor_shift17_injective (x y : Nat) (hx : x < 2 ^ 64) (hy : y < 2 ^ 64)
    (h : x ^^^ ((x <<< 17) % 2 ^ 64) = y ^^^ ((y <<< 17) % 2 ^ 64)) : x = y := by
  apply Nat.eq_of_testBit_eq
  intro i
  induction i using Nat.strong_induction_on with
  | _ i ih =>
    by_cases hi : i < 64
    · have hb := congrArg (fun z => z.testBit i) h
      simp only [Nat.testBit_xor, Nat.testBit_mod_two_pow, Nat.testBit_shiftLeft] at hb
      by_cases h17 : 17 ≤ i
      · have hprev := ih (i - 17) (by omega)
        have h17' : i ≥ 17 := h17
        simp only [hi, h17', decide_True, Bool.true_and, hprev] at hb
        cases hxb : x.testBit i <;> cases hyb : y.testBit i <;>
          cases hzb : y.testBit (i - 17) <;> simp [hxb, hyb, hzb] at hb ⊢
      · have h17' : ¬ i ≥ 17 := h17
        simpa [hi, h17'] using hb
    · rw [testBit_of_lt_two_pow_64 x i hx (by omega),
        testBit_of_lt_two_pow_64 y i hy (by omega)]

theorem xor_three_cancel (a b c : Nat) : (a ^^^ b) ^^^ (b ^^^ c) = a ^^^ c := by
  apply Nat.eq_of_testBit_eq
  intro i
  simp only [Nat.testBit_xor]
  cases a.testBit i <;> cases b.testBit i <;> cases c.testBit i <;> rfl

/-- Two states of 64-bit words that `random` leaves in the same state are the same state. -/
theorem random_snd_injective (s t : RandomState) (hs : s.Valid) (ht : t.Valid)
    (h : (random s).2 = (random t).2) : s = t := by
  obtain ⟨hs0, hs1, hs2, hs3⟩ := hs
  obtain ⟨ht0, ht1, ht2, ht3⟩ := ht
  rw [random_snd s, random_snd t] at h
  injection h with hA hB hC hD
  have hE : s.s1 ^^^ s.s3 = t.s1 ^^^ t.s3 :=
    rotl_injective _ _ 45 (Nat.xor_lt_two_pow hs1 hs3) (Nat.xor_lt_two_pow ht1 ht3)
      (by decide) (by decide) hD
  have h0 : s.s0 = t.s0 := by
    rw [Nat.xor_assoc, Nat.xor_assoc, hE] at hA
    exact Nat.xor_left_inj.1 hA
  have hF : s.s1 ^^^ s.s2 = t.s1 ^^^ t.s2 := by
    rw [Nat.xor_assoc, Nat.xor_assoc, h0] at hB
    exact Nat.xor_right_inj.1 hB
  have hG : s.s2 ^^^ ((s.s1 <<< 17) % 2 ^ 64) = t.s2 ^^^ ((t.s1 <<< 17) % 2 ^ 64) := by
    rw [Nat.xor_assoc, Nat.xor_assoc, h0] at hC
    exact Nat.xor_right_inj.1 hC
  have h1 : s.s1 = t.s1 := by
    apply xor_shift17_injective _ _ hs1 ht1
    rw [← xor_three_cancel s.s1 s.s2, ← xor_three_cancel t.s1 t.s2, hF, hG]
  have h2 : s.s2 = t.s2 := by
    rw [h1] at hF
    exact Nat.xor_right_inj.1 hF
  have h3 : s.s3 = t.s3 := by
    rw [h1] at hE
    exact Nat.xor_right_inj.1 hE
  cases s; cases t
  simp only at h0 h1 h2 h3
  rw [h0, h1, h2, h3]

theorem after_valid_ne_zero (n : Nat) :
    ∀ (s : RandomState), s.Valid → s ≠ ⟨0, 0, 0, 0⟩ →
      (RandomState.after n s).Valid ∧ RandomState.after n s ≠ ⟨0, 0, 0, 0⟩ := by
  induction n with
  | zero => intro s hv hne; exact ⟨hv, hne⟩
  | succ n ih =>
    intro s hv hne
    rw [RandomState.after]
    apply ih _ (random_valid s hv).2
    intro hz
    apply hne
    apply random_snd_injective s ⟨0, 0, 0, 0⟩ hv (by decide)
    rw [hz]
    decide

theorem nameLoop_state (n : Nat) :
    ∀ (state : RandomState) (username : List Nat),
      (createFakeUser.nameLoop n state username).2 = RandomState.after n state := by
  induction n with
  | zero => intro state username; rfl
  | succ n ih =>
    intro state username
    rw [createFakeUser.nameLoop, RandomState.after]
    exact ih _ _

/-- C19 (the state update is one-to-one). On states of four 64-bit words, two different
states never lead to the same next state. The all-zero state leads to itself, so a state
that is not all-zero does not lead to the all-zero state; and from the seed `(i, 0, 0, 0)`
of `createFakeUser`, with `i` not 0, no number of calls of `random` reaches it; the states
`createFakeUser` goes through are the seed after some number of calls. -/
theorem random_state_injective (s t : RandomState) (hs : s.Valid) (ht : t.Valid) :
    (s ≠ t → (random s).2 ≠ (random t).2) ∧
    (random ⟨0, 0, 0, 0⟩).2 = ⟨0, 0, 0, 0⟩ ∧
    (s ≠ ⟨0, 0, 0, 0⟩ → (random s).2 ≠ ⟨0, 0, 0, 0⟩) ∧
    (∀ (i n : Nat), i ≠ 0 → i < 2 ^ 64 →
      RandomState.after n ⟨i, 0, 0, 0⟩ ≠ ⟨0, 0, 0, 0⟩) ∧
    ∀ (i n : Nat) (username : List Nat),
      (createFakeUser.nameLoop n (random ⟨i, 0, 0, 0⟩).2 username).2
        = RandomState.after (n + 1) ⟨i, 0, 0, 0⟩ := by
  refine ⟨fun hne h => hne (random_snd_injective s t hs ht h), by decide, ?_, ?_,
    fun i n username => nameLoop_state n _ username⟩
  · intro hne
    exact (after_valid_ne_zero 1 s hs hne).2
  · intro i n hi hlt
    have hz : (0 : Nat) < 2 ^ 64 := by decide
    apply (after_valid_ne_zero n ⟨i, 0, 0, 0⟩ ⟨hlt, hz, hz, hz⟩ ?_).2
    intro h
    injection h with h
    exact hi h

theorem random_state_injective_witness :
    (⟨1, 0, 0, 0⟩ : RandomState).Valid ∧ (⟨2, 0, 0, 0⟩ : RandomState).Valid ∧
    (random ⟨1, 0, 0, 0⟩).2 = ⟨1, 1, 1, 0⟩ ∧ (random ⟨2, 0, 0, 0⟩).2 = ⟨2, 2, 2, 0⟩ ∧
    (random ⟨1, 0, 0, 0⟩).2 ≠ (random ⟨2, 0, 0, 0⟩).2 ∧
    RandomState.after 3 ⟨1, 0, 0, 0⟩ ≠ ⟨0, 0, 0, 0⟩ :=
  ⟨by decide, by decide, by decide, by decide,
    (random_state_injective ⟨1, 0, 0, 0⟩ ⟨2, 0, 0, 0⟩ (by decide) (by decide)).1 (by decide),
    (random_state_injective ⟨1, 0, 0, 0⟩ ⟨2, 0, 0, 0⟩ (by decide) (by decide)).2.2.2.1 1 3
      (by decide) (by decide)⟩

/-! ## Login blocks and lookups next to handles of other threads -/

theorem mutex_free_iff (m : SharedMutex) :
    (m.writer = false ∧ m.readers = 0) ↔ m = SharedMutex.free := by
  cases m with
  | mk wr rd =>
    simp only [SharedMutex.free, SharedMutex.mk.injEq]

/-- With the lock of the selected partition free, whatever the other locks are, a login
block is an insert into the container of the selected partition. -/
theorem login_eq_of_free (strHash : List Nat → Nat) (r : UserIPRegistration)
    (kv : User × IPAddress) (hN : 0 < r._partitions.length)
    (hfree : r.mutex (hashUser strHash kv.1 % r._partitions.length) = SharedMutex.free) :
    login strHash r kv = Except.ok (r.inserted strHash kv) := by
  have hlt : hashUser strHash kv.1 % r._partitions.length < r._partitions.length :=
    Nat.mod_lt _ hN
  unfold login UserIPRegistration.withStorage UserIPRegistration.inserted
  rw [getStorage_eq strHash r kv.1 hN, hfree]
  simp only [SharedMutex.lock, SharedMutex.free, and_self, if_true]
  simp only [Storage.destroy, Storage.assign, Storage.arrow, if_true]
  congr 2
  apply List.ext_getElem?
  intro j
  simp only [List.getElem?_modify, List.getElem?_modify_eq]
  by_cases hj : hashUser strHash kv.1 % r._partitions.length = j
  · subst hj
    rw [List.getElem?_eq_getElem hlt]
    have hm := hfree
    rw [mutex_eq_getElem r _ hlt] at hm
    simp [SharedMutex.unlock, hm, SharedMutex.free]
  · simp [hj]

/-- With the lock of the selected partition held, a login block waits. -/
theorem login_blocked (strHash : List Nat → Nat) (r : UserIPRegistration)
    (kv : User × IPAddress) (hN : 0 < r._partitions.length)
    (hheld : r.mutex (hashUser strHash kv.1 % r._partitions.length) ≠ SharedMutex.free) :
    login strHash r kv = Except.error Fault.wouldBlock := by
  unfold login UserIPRegistration.withStorage
  rw [getStorage_eq strHash r kv.1 hN]
  have hno : ¬ ((r.mutex (hashUser strHash kv.1 % r._partitions.length)).writer = false ∧
      (r.mutex (hashUser strHash kv.1 % r._partitions.length)).readers = 0) :=
    fun h => hheld ((mutex_free_iff _).1 h)
  simp only [SharedMutex.lock, hno, if_false]

/-- A read-only scope runs whenever the selected partition is not held exclusively, and
leaves the registry as it was. -/
theorem withSharedStorage_of_unlocked {ε α : Type} (strHash : List Nat → Nat)
    (r : UserIPRegistration) (key : User) (body : Map → Except ε α)
    (hN : 0 < r._partitions.length)
    (hw : (r.mutex (hashUser strHash key % r._partitions.length)).writer = false) :
    r.withSharedStorage strHash key body
      = Except.ok (r, body (r.container (hashUser strHash key % r._partitions.length))) := by
  have hex : ∃ r2 out, r.withSharedStorage strHash key body = Except.ok (r2, out) := by
    unfold UserIPRegistration.withSharedStorage
    rw [getSharedStorage_eq strHash r key hN]
    simp only [SharedMutex.lock_shared, hw, if_true]
    exact ⟨_, _, rfl⟩
  obtain ⟨r2, out, h⟩ := hex
  obtain ⟨_, _, h3, h4⟩ := withSharedStorage_locks strHash r r2 key body out hN h
  rw [h, h3, h4]

theorem lookup_eq_of_unlocked (strHash : List Nat → Nat) (r : UserIPRegistration) (key : User)
    (hN : 0 < r._partitions.length)
    (hw : (r.mutex (hashUser strHash key % r._partitions.length)).writer = false) :
    lookup strHash r key =
      Except.ok ((r.container (hashUser strHash key % r._partitions.length)).find key, r) := by
  unfold lookup
  rw [withSharedStorage_of_unlocked strHash r key _ hN hw]

theorem foldl_inserted_mutex (strHash : List Nat → Nat) (kvs : List (User × IPAddress))
    (i : Nat) :
    ∀ (r : UserIPRegistration),
      (kvs.foldl (fun s kv => s.inserted strHash kv) r).mutex i = r.mutex i := by
  induction kvs with
  | nil => intro r; rfl
  | cons kv rest ih => intro r; rw [List.foldl_cons, ih, inserted_mutex]

/-- A login block that returns has done the insert. -/
theorem login_ok_eq (strHash : List Nat → Nat) (r r1 : UserIPRegistration)
    (kv : User × IPAddress) (hN : 0 < r._partitions.length)
    (h : login strHash r kv = Except.ok r1) :
    r1 = r.inserted strHash kv ∧
      r.mutex (hashUser strHash kv.1 % r._partitions.length) = SharedMutex.free := by
  by_cases hfree : r.mutex (hashUser strHash kv.1 % r._partitions.length) = SharedMutex.free
  · rw [login_eq_of_free strHash r kv hN hfree] at h
    injection h with h
    exact ⟨h.symm, hfree⟩
  · rw [login_blocked strHash r kv hN hfree] at h
    cases h

/-- A sequence of login blocks that returns has done the inserts, one after the other. -/
theorem logins_ok_eq (strHash : List Nat → Nat) (kvs : List (User × IPAddress)) :
    ∀ (r r2 : UserIPRegistration), 0 < r._partitions.length →
      logins strHash r kvs = Except.ok r2 →
      r2 = kvs.foldl (fun s kv => s.inserted strHash kv) r := by
  induction kvs with
  | nil =>
    intro r r2 _ h
    simp only [logins] at h
    injection h with h
    exact h.symm
  | cons kv rest ih =>
    intro r r2 hN h
    simp only [logins] at h
    cases hl : login strHash r kv with
    | error f => rw [hl] at h; cases h
    | ok r1 =>
      rw [hl] at h
      obtain ⟨e1, _⟩ := login_ok_eq strHash r r1 kv hN hl
      subst e1
      rw [List.foldl_cons]
      exact ih _ r2 (by rw [inserted_length]; exact hN) h

/-- A sequence of login blocks runs when the locks of the partitions it selects are free. -/
theorem logins_eq_of_free (strHash : List Nat → Nat) (kvs : List (User × IPAddress)) :
    ∀ (r : UserIPRegistration), 0 < r._partitions.length →
      (∀ kv ∈ kvs,
        r.mutex (hashUser strHash kv.1 % r._partitions.length) = SharedMutex.free) →
      logins strHash r kvs = Except.ok (kvs.foldl (fun s kv => s.inserted strHash kv) r) := by
  induction kvs with
  | nil => intro r _ _; rfl
  | cons kv rest ih =>
    intro r hN hfree
    rw [logins, login_eq_of_free strHash r kv hN (hfree kv (List.mem_cons_self _ _))]
    simp only [List.foldl_cons]
    apply ih _ (by rw [inserted_length]; exact hN)
    intro kv1 hkv1
    rw [inserted_length, inserted_mutex]
    exact hfree kv1 (List.mem_cons_of_mem _ hkv1)

/-! ## Insert and lookup, on every registry -/

/-- C3 (insert/lookup round trip). On every registry with at least one partition, whatever
handles other threads hold, and for a key `k` that is not stored: handles that
`getStorage(k)` and `getSharedStorage(k)` return are on the same partition. When the lock
of that partition is held the login block for `(k, v)` waits. Otherwise both calls return,
the login block runs, a lookup of `k` through `getSharedStorage(k)` then finds exactly
`v`, and after any further login blocks for other keys that have run the lookup of `k`
still finds `v`; those blocks do run when the locks of their partitions are free. -/
theorem insert_lookup_round_trip (strHash : List Nat → Nat) (r : UserIPRegistration)
    (k : User) (v : IPAddress) (others : List (User × IPAddress))
    (hN : 1 ≤ r._partitions.length)
    (hfresh : k ∉ r.storedKeys) (hothers : ∀ kv ∈ others, kv.1 ≠ k) :
    (∀ s1 q1 s2 q2, r.getStorage strHash k = Except.ok (s1, q1) →
      r.getSharedStorage strHash k = Except.ok (s2, q2) → s1.storage = s2.storage) ∧
    ((r.mutex (hashUser strHash k % r._partitions.length) ≠ SharedMutex.free ∧
        login strHash r (k, v) = Except.error Fault.wouldBlock) ∨
      (r.mutex (hashUser strHash k % r._partitions.length) = SharedMutex.free ∧
        (∃ s1 q1 s2 q2, r.getStorage strHash k = Except.ok (s1, q1) ∧
          r.getSharedStorage strHash k = Except.ok (s2, q2) ∧ s1.storage = s2.storage) ∧
        ∃ r1, login strHash r (k, v) = Except.ok r1 ∧
          lookup strHash r1 k = Except.ok (some v, r1) ∧
          (∀ r2, logins strHash r1 others = Except.ok r2 →
            lookup strHash r2 k = Except.ok (some v, r2)) ∧
          ((∀ kv ∈ others,
              r.mutex (hashUser strHash kv.1 % r._partitions.length) = SharedMutex.free) →
            ∃ r2, logins strHash r1 others = Except.ok r2))) := by
  have hpos : 0 < r._partitions.length := hN
  constructor
  · intro s1 q1 s2 q2 h1 h2
    rw [(storage_of_handle strHash r k s1 q1 hpos (Or.inl h1)).1,
      (storage_of_handle strHash r k s2 q2 hpos (Or.inr h2)).1]
  · by_cases hfree : r.mutex (hashUser strHash k % r._partitions.length) = SharedMutex.free
    · right
      have hl1 := inserted_length strHash r (k, v)
      have hpos1 : 0 < (r.inserted strHash (k, v))._partitions.length := by
        rw [hl1]; exact hpos
      have hfind1 : ((r.inserted strHash (k, v)).container
          (hashUser strHash k % r._partitions.length)).find k = some v := by
        rw [inserted_find strHash r (k, v) k hpos, find_none_of_not_stored r k _ hfresh]
        simp
      have hw1 : ((r.inserted strHash (k, v)).mutex (hashUser strHash k
          % (r.inserted strHash (k, v))._partitions.length)).writer = false := by
        rw [hl1, inserted_mutex, hfree]; rfl
      refine ⟨hfree, ?_, r.inserted strHash (k, v),
        login_eq_of_free strHash r (k, v) hpos hfree, ?_, ?_, ?_⟩
      · rw [getStorage_eq strHash r k hpos, getSharedStorage_eq strHash r k hpos, hfree]
        exact ⟨_, _, _, _, rfl, rfl, rfl⟩
      · rw [lookup_eq_of_unlocked strHash _ k hpos1 hw1, hl1, hfind1]
      · intro r2 h2
        have e2 := logins_ok_eq strHash others _ r2 hpos1 h2
        subst e2
        have hl2 := foldl_inserted_length strHash others (r.inserted strHash (k, v))
        have hw2 : ((others.foldl (fun s kv => s.inserted strHash kv)
            (r.inserted strHash (k, v))).mutex (hashUser strHash k
              % (others.foldl (fun s kv => s.inserted strHash kv)
                (r.inserted strHash (k, v)))._partitions.length)).writer = false := by
          rw [hl2, foldl_inserted_mutex]; exact hw1
        rw [lookup_eq_of_unlocked strHash _ k (by rw [hl2]; exact hpos1) hw2, hl2]
        have h := foldl_inserted_find_of_ne strHash k others (r.inserted strHash (k, v)) hpos1
          hothers
        rw [h, hl1, hfind1]
      · intro hfrees
        refine ⟨_, logins_eq_of_free strHash others _ hpos1 ?_⟩
        intro kv hkv
        rw [hl1, inserted_mutex]
        exact hfrees kv hkv
    · left
      exact ⟨hfree, login_blocked strHash r (k, v) hpos hfree⟩

theorem insert_lookup_round_trip_witness :
    1 ≤ (⟨[([(⟨[98], 4⟩, ⟨7⟩)], SharedMutex.free), (Map.empty, ⟨false, 1⟩)]⟩ :
        UserIPRegistration)._partitions.length ∧
    ¬ (⟨[([(⟨[98], 4⟩, ⟨7⟩)], SharedMutex.free), (Map.empty, ⟨false, 1⟩)]⟩ :
        UserIPRegistration).Quiescent ∧
    (∃ r1,
      login List.sum ⟨[([(⟨[98], 4⟩, ⟨7⟩)], SharedMutex.free), (Map.empty, ⟨false, 1⟩)]⟩
        (⟨[98], 5⟩, ⟨10⟩) = Except.ok r1 ∧
      lookup List.sum r1 ⟨[98], 5⟩ = Except.ok (some ⟨10⟩, r1) ∧
      ∀ r2, logins List.sum r1 [(⟨[100], 5⟩, ⟨20⟩), (⟨[98], 6⟩, ⟨30⟩)] = Except.ok r2 →
        lookup List.sum r2 ⟨[98], 5⟩ = Except.ok (some ⟨10⟩, r2)) := by
  refine ⟨by decide, by decide, ?_⟩
  rcases (insert_lookup_round_trip List.sum
    ⟨[([(⟨[98], 4⟩, ⟨7⟩)], SharedMutex.free), (Map.empty, ⟨false, 1⟩)]⟩ ⟨[98], 5⟩ ⟨10⟩
    [(⟨[100], 5⟩, ⟨20⟩), (⟨[98], 6⟩, ⟨30⟩)] (by decide) (by decide) (by decide)).2
    with h | ⟨_, _, r1, h1, h2, h3, _⟩
  · exact absurd h.2 (by decide)
  · exact ⟨r1, h1, h2, h3⟩

/-! ## The frame of an insert, on every registry -/

/-- C14 (insert frame). On every registry with `N ≥ 1` partitions, whatever handles other
threads hold: when the lock of partition `hash(k) mod N` is held the login block for
`(k, v)` waits and nothing has changed; otherwise it runs and changes at most the container
of that partition. The container of every other partition is what it was, in the selected
container the entries with a key other than `k` are the same, in the same order, every
lookup of another key finds what it found, and the partition count and all locks are as
before. -/
theorem insert_frame (strHash : List Nat → Nat) (r : UserIPRegistration) (k : User)
    (v : IPAddress) (hN : 1 ≤ r._partitions.length) :
    (r.mutex (hashUser strHash k % r._partitions.length) ≠ SharedMutex.free ∧
      login strHash r (k, v) = Except.error Fault.wouldBlock) ∨
    (r.mutex (hashUser strHash k % r._partitions.length) = SharedMutex.free ∧
      ∃ r1, login strHash r (k, v) = Except.ok r1 ∧
        r1._partitions.length = r._partitions.length ∧
        (∀ i, i ≠ hashUser strHash k % r._partitions.length →
          r1.container i = r.container i) ∧
        (r1.container (hashUser strHash k % r._partitions.length)).filter
            (fun e => decide (e.1 ≠ k))
          = (r.container (hashUser strHash k % r._partitions.length)).filter
            (fun e => decide (e.1 ≠ k)) ∧
        (∀ k1, k1 ≠ k →
          (r1.container (hashUser strHash k1 % r._partitions.length)).find k1
            = (r.container (hashUser strHash k1 % r._partitions.length)).find k1) ∧
        ∀ i, r1.mutex i = r.mutex i) := by
  have hpos : 0 < r._partitions.length := hN
  have hlt : hashUser strHash k % r._partitions.length < r._partitions.length :=
    Nat.mod_lt _ hpos
  by_cases hfree : r.mutex (hashUser strHash k % r._partitions.length) = SharedMutex.free
  · right
    refine ⟨hfree, r.inserted strHash (k, v), login_eq_of_free strHash r (k, v) hpos hfree,
      inserted_length strHash r (k, v), ?_, ?_, ?_, inserted_mutex strHash r (k, v)⟩
    · intro i hi
      rcases Nat.lt_or_ge i r._partitions.length with h | h
      · rw [inserted_container strHash r (k, v) i h]
        have : ¬ hashUser strHash k % r._partitions.length = i := fun e => hi e.symm
        simp only [this, if_false]
      · rw [container_of_length_le r i h,
          container_of_length_le _ i (by rw [inserted_length]; exact h)]
    · rw [inserted_container strHash r (k, v) _ hlt]
      simp only [if_true]
      exact Map.filter_insert _ k v
    · intro k1 hk1
      rw [inserted_find strHash r (k, v) k1 hpos]
      simp only [hk1, if_false]
  · left
    exact ⟨hfree, login_blocked strHash r (k, v) hpos hfree⟩

theorem insert_frame_witness :
    1 ≤ (⟨[([(⟨[98], 4⟩, ⟨7⟩)], SharedMutex.free), ([(⟨[97], 1⟩, ⟨8⟩)], ⟨false, 1⟩)]⟩ :
        UserIPRegistration)._partitions.length ∧
    ¬ (⟨[([(⟨[98], 4⟩, ⟨7⟩)], SharedMutex.free), ([(⟨[97], 1⟩, ⟨8⟩)], ⟨false, 1⟩)]⟩ :
        UserIPRegistration).Quiescent ∧
    login List.sum
        ⟨[([(⟨[98], 4⟩, ⟨7⟩)], SharedMutex.free), ([(⟨[97], 1⟩, ⟨8⟩)], ⟨false, 1⟩)]⟩
        (⟨[98], 3⟩, ⟨9⟩)
      = Except.ok ⟨[([(⟨[98], 3⟩, ⟨9⟩), (⟨[98], 4⟩, ⟨7⟩)], SharedMutex.free),
          ([(⟨[97], 1⟩, ⟨8⟩)], ⟨false, 1⟩)]⟩ ∧
    login List.sum
        ⟨[([(⟨[98], 4⟩, ⟨7⟩)], SharedMutex.free), ([(⟨[97], 1⟩, ⟨8⟩)], ⟨false, 1⟩)]⟩
        (⟨[97], 3⟩, ⟨9⟩) = Except.error Fault.wouldBlock ∧
    ∃ r1, login List.sum
        ⟨[([(⟨[98], 4⟩, ⟨7⟩)], SharedMutex.free), ([(⟨[97], 1⟩, ⟨8⟩)], ⟨false, 1⟩)]⟩
        (⟨[98], 3⟩, ⟨9⟩) = Except.ok r1 ∧
      r1._partitions.length = 2 ∧
      (∀ i, i ≠ hashUser List.sum ⟨[98], 3⟩ % 2 → r1.container i
        = (⟨[([(⟨[98], 4⟩, ⟨7⟩)], SharedMutex.free),
            ([(⟨[97], 1⟩, ⟨8⟩)], ⟨false, 1⟩)]⟩ : UserIPRegistration).container i) := by
  refine ⟨by decide, by decide, by decide, by decide, ?_⟩
  rcases insert_frame List.sum
    ⟨[([(⟨[98], 4⟩, ⟨7⟩)], SharedMutex.free), ([(⟨[97], 1⟩, ⟨8⟩)], ⟨false, 1⟩)]⟩
    ⟨[98], 3⟩ ⟨9⟩ (by decide) with h | ⟨_, r1, h1, h2, h3, _⟩
  · exact absurd h.2 (by decide)
  · exact ⟨r1, h1, h2, h3⟩

/-! ## Users with the same username, on every registry -/

/-- C16 (the hash reads the username only). Two users with the same username have the same
hash, whatever their codes. So on every registry, whatever its locks, `getStorage` and
`getSharedStorage` do for the one exactly what they do for the other, and a handle returned
for either is on partition `hash mod N`. With different codes: when the lock of that
partition is held both login blocks wait; otherwise both run, one after the other, and
both keys are then distinct entries of that one container. When neither was stored before,
the container has grown by two entries and each lookup finds the value inserted for its own
key. -/
theorem hash_username_only (strHash : List Nat → Nat) (a b : User)
    (hu : a.username = b.username) :
    hashUser strHash a = hashUser strHash b ∧
    (∀ (r : UserIPRegistration),
      r.getStorage strHash a = r.getStorage strHash b ∧
      r.getSharedStorage strHash a = r.getSharedStorage strHash b) ∧
    (∀ (r q : UserIPRegistration) (s : Storage), 1 ≤ r._partitions.length →
      (r.getStorage strHash a = Except.ok (s, q) ∨
        r.getSharedStorage strHash a = Except.ok (s, q) ∨
        r.getStorage strHash b = Except.ok (s, q) ∨
        r.getSharedStorage strHash b = Except.ok (s, q)) →
      s.storage = hashUser strHash a % r._partitions.length) ∧
    (∀ (r : UserIPRegistration) (va vb : IPAddress), a.code ≠ b.code →
      1 ≤ r._partitions.length →
      (r.mutex (hashUser strHash a % r._partitions.length) ≠ SharedMutex.free ∧
        login strHash r (a, va) = Except.error Fault.wouldBlock ∧
        login strHash r (b, vb) = Except.error Fault.wouldBlock) ∨
      (r.mutex (hashUser strHash a % r._partitions.length) = SharedMutex.free ∧
        ∃ r1 r2, login strHash r (a, va) = Except.ok r1 ∧
          login strHash r1 (b, vb) = Except.ok r2 ∧
          a ≠ b ∧
          a ∈ (r2.container (hashUser strHash a % r._partitions.length)).keys ∧
          b ∈ (r2.container (hashUser strHash a % r._partitions.length)).keys ∧
          (a ∉ r.storedKeys → b ∉ r.storedKeys →
            (r2.container (hashUser strHash a % r._partitions.length)).size
              = (r.container (hashUser strHash a % r._partitions.length)).size + 2 ∧
            lookup strHash r2 a = Except.ok (some va, r2) ∧
            lookup strHash r2 b = Except.ok (some vb, r2)))) := by
  have hh := hashUser_of_username strHash a b hu
  refine ⟨hh, ?_, ?_, ?_⟩
  · intro r
    rcases Nat.eq_zero_or_pos r._partitions.length with h0 | hpos
    · rw [getStorage_empty strHash r a h0, getStorage_empty strHash r b h0,
        getSharedStorage_empty strHash r a h0, getSharedStorage_empty strHash r b h0]
      exact ⟨rfl, rfl⟩
    · rw [getStorage_eq strHash r a hpos, getStorage_eq strHash r b hpos,
        getSharedStorage_eq strHash r a hpos, getSharedStorage_eq strHash r b hpos, hh]
      exact ⟨rfl, rfl⟩
  · intro r q s hN h
    have hpos : 0 < r._partitions.length := hN
    rcases h with h | h | h | h
    · exact (storage_of_handle strHash r a s q hpos (Or.inl h)).1
    · exact (storage_of_handle strHash r a s q hpos (Or.inr h)).1
    · rw [hh]; exact (storage_of_handle strHash r b s q hpos (Or.inl h)).1
    · rw [hh]; exact (storage_of_handle strHash r b s q hpos (Or.inr h)).1
  · intro r va vb hcode hN
    have hpos : 0 < r._partitions.length := hN
    have hlt : hashUser strHash a % r._partitions.length < r._partitions.length :=
      Nat.mod_lt _ hpos
    by_cases hfree : r.mutex (hashUser strHash a % r._partitions.length) = SharedMutex.free
    · right
      have hab : a ≠ b := fun e => hcode (by rw [e])
      have hba : b ≠ a := fun e => hab e.symm
      have hl1 := inserted_length strHash r (a, va)
      have hpos1 : 0 < (r.inserted strHash (a, va))._partitions.length := by
        rw [hl1]; exact hpos
      have hl2 := inserted_length strHash (r.inserted strHash (a, va)) (b, vb)
      have hpos2 : 0 < ((r.inserted strHash (a, va)).inserted strHash
          (b, vb))._partitions.length := by
        rw [hl2]; exact hpos1
      have hfree1 : (r.inserted strHash (a, va)).mutex (hashUser strHash b
          % (r.inserted strHash (a, va))._partitions.length) = SharedMutex.free := by
        rw [hl1, inserted_mutex, ← hh]; exact hfree
      have hwa : (((r.inserted strHash (a, va)).inserted strHash (b, vb)).mutex
          (hashUser strHash a % ((r.inserted strHash (a, va)).inserted strHash
            (b, vb))._partitions.length)).writer = false := by
        rw [hl2, hl1, inserted_mutex, inserted_mutex, hfree]; rfl
      have hwb : (((r.inserted strHash (a, va)).inserted strHash (b, vb)).mutex
          (hashUser strHash b % ((r.inserted strHash (a, va)).inserted strHash
            (b, vb))._partitions.length)).writer = false := by
        rw [← hh]; exact hwa
      have hc1 := inserted_container strHash r (a, va) _ hlt
      simp only [if_true] at hc1
      have hc2 := inserted_container strHash (r.inserted strHash (a, va)) (b, vb)
        (hashUser strHash a % r._partitions.length) (by rw [hl1]; exact hlt)
      rw [hl1] at hc2
      simp only [← hh, if_true] at hc2
      refine ⟨hfree, r.inserted strHash (a, va),
        (r.inserted strHash (a, va)).inserted strHash (b, vb),
        login_eq_of_free strHash r (a, va) hpos hfree,
        login_eq_of_free strHash _ (b, vb) hpos1 hfree1, hab, ?_, ?_, ?_⟩
      · rw [hc2, hc1]
        exact (Map.mem_keys_insert _ _ a).2
          (Or.inr ((Map.mem_keys_insert _ _ a).2 (Or.inl rfl)))
      · rw [hc2]
        exact (Map.mem_keys_insert _ _ b).2 (Or.inl rfl)
      · intro ha hb
        have hfa := find_none_of_not_stored r a (hashUser strHash a % r._partitions.length) ha
        have hfb := find_none_of_not_stored r b (hashUser strHash a % r._partitions.length) hb
        have hfb1 : (Map.insert (r.container (hashUser strHash a % r._partitions.length))
            (a, va)).find b = none := by
          rw [Map.find_insert_of_ne _ b a va hba]; exact hfb
        refine ⟨?_, ?_, ?_⟩
        · rw [hc2, hc1, Map.size_insert, Map.size_insert, hfa, hfb1]
          simp
        · rw [lookup_eq_of_unlocked strHash _ a hpos2 hwa, hl2, hl1, hc2, hc1,
            Map.find_insert_of_ne _ a b vb hab, Map.find_insert_self, hfa]
          rfl
        · rw [lookup_eq_of_unlocked strHash _ b hpos2 hwb, hl2, hl1, ← hh, hc2, hc1,
            Map.find_insert_self, hfb1]
          rfl
    · left
      refine ⟨hfree, login_blocked strHash r (a, va) hpos hfree,
        login_blocked strHash r (b, vb) hpos ?_⟩
      rw [← hh]; exact hfree

theorem hash_username_only_witness :
    (⟨[97, 99], 1⟩ : User).username = (⟨[97, 99], 2⟩ : User).username ∧
    hashUser List.sum ⟨[97, 99], 1⟩ = hashUser List.sum ⟨[97, 99], 2⟩ ∧
    ¬ (⟨[freshPartition, (Map.empty, ⟨false, 1⟩)]⟩ : UserIPRegistration).Quiescent ∧
    ∃ r1 r2, login List.sum ⟨[freshPartition, (Map.empty, ⟨false, 1⟩)]⟩
        (⟨[97, 99], 1⟩, ⟨10⟩) = Except.ok r1 ∧
      login List.sum r1 (⟨[97, 99], 2⟩, ⟨20⟩) = Except.ok r2 ∧
      (⟨[97, 99], 1⟩ : User) ∈ (r2.container 0).keys ∧
      (⟨[97, 99], 2⟩ : User) ∈ (r2.container 0).keys := by
  have h := hash_username_only List.sum ⟨[97, 99], 1⟩ ⟨[97, 99], 2⟩ rfl
  rcases h.2.2.2 ⟨[freshPartition, (Map.empty, ⟨false, 1⟩)]⟩ ⟨10⟩ ⟨20⟩ (by decide)
    (by decide) with hb | ⟨_, r1, r2, h1, h2, _, h4, h5, _⟩
  · exact absurd hb.2.1 (by decide)
  · exact ⟨rfl, h.1, by decide, r1, r2, h1, h2, h4, h5⟩

end Assignment5
